import Mathlib

set_option maxHeartbeats 1000000

/-!
Verification of canu's overlap-record store codec (`src/stores/ovStoreFile.C`,
class `ovFile`) and the decompressing byte stream (`bzipBuffer`).

The embedding models the active compile-time record variant
`ovOverlapNWORDS == 3`: the payload is three 64-bit words, each split into two
32-bit wire words (`sizeof(ovOverlapDAT) == 24`).  The underlying file is
modelled as the list of 32-bit words it contains, in order; machine integers
are modelled as `Nat` with explicit bounds / masks where overflow matters.
-/

/-- Byte size of a 32-bit word, `sizeof(uint32)` in the source. -/
def sizeofUint32 : Nat := 4

/-- Byte size of the overlap payload, `sizeof(ovOverlapDAT)`: the active
variant stores three 64-bit words, so 24 bytes. -/
def sizeofOvOverlapDAT : Nat := 24

/-- The quantity the constructor calls `lcm`: the product of the byte sizes of
a normal record (`sizeof(uint32) * 1 + sizeof(ovOverlapDAT)`) and a full
record (`sizeof(uint32) * 2 + sizeof(ovOverlapDAT)`). -/
def ovFileLCM : Nat :=
  (sizeofUint32 * 1 + sizeofOvOverlapDAT) * (sizeofUint32 * 2 + sizeofOvOverlapDAT)

/-- The word-buffer capacity `_bufferMax` computed by `ovFile::ovFile` from the
`bufferSize` argument: `bufferSize` is first raised to at least `16 * 1024`,
then `_bufferMax = (bufferSize / (lcm * sizeof(uint32))) * lcm`. -/
def ovFileBufferMax (bufferSize : Nat) : Nat :=
  let bs := if bufferSize < 16 * 1024 then 16 * 1024 else bufferSize
  (bs / (ovFileLCM * sizeofUint32)) * ovFileLCM

/-- On-disk width of one record in 32-bit words: 1 id word (normal) or
2 id words (full), plus the payload wire words. -/
def recordWords (isNormal : Bool) : Nat :=
  (if isNormal then 1 else 2) + sizeofOvOverlapDAT / sizeofUint32

theorem recordWords_true : recordWords true = 7 := by decide

theorem recordWords_false : recordWords false = 8 := by decide

theorem ovFileLCM_eq : ovFileLCM = 896 := by decide

theorem ovFileBufferMax_eq (bufferSize : Nat) :
    ovFileBufferMax bufferSize =
      ((if bufferSize < 16 * 1024 then 16 * 1024 else bufferSize) / 3584) * 896 := rfl

theorem ovFileBufferMax_pos (bufferSize : Nat) : 0 < ovFileBufferMax bufferSize := by
  rw [ovFileBufferMax_eq]
  have h : 3584 ≤ if bufferSize < 16 * 1024 then 16 * 1024 else bufferSize := by
    split
    · omega
    · omega
  have h4 : 1 ≤ (if bufferSize < 16 * 1024 then 16 * 1024 else bufferSize) / 3584 :=
    (Nat.le_div_iff_mul_le (by omega)).mpr (by omega)
  omega

theorem dvd_ovFileBufferMax (d : Nat) (h : d ∣ ovFileLCM) (bufferSize : Nat) :
    d ∣ ovFileBufferMax bufferSize := by
  rw [ovFileBufferMax]
  exact Dvd.dvd.mul_left h _

/-- C5: for every `bufferSize` argument, the computed buffer capacity is
divisible both by the word width of a normal-variant record (7 words)
and by the word width of a full-variant record (8 words), so a full buffer
always holds a whole number of records of either variant. -/
theorem C5_buffer_alignment (bufferSize : Nat) :
    ovFileBufferMax bufferSize % recordWords true = 0 ∧
    ovFileBufferMax bufferSize % recordWords false = 0 := by
  constructor
  · have h : recordWords true ∣ ovFileBufferMax bufferSize :=
      dvd_ovFileBufferMax _ (by decide) _
    omega
  · have h : recordWords false ∣ ovFileBufferMax bufferSize :=
      dvd_ovFileBufferMax _ (by decide) _
    omega

/-- C4 counterexample: at the default minimum `bufferSize = 16 * 1024` the
computed capacity is 3584 words, which is strictly below the 16 Ki words the
claim requires, and is not the least common multiple 56 of the per-record
word counts scaled up to at least 16 Ki words (that would be 16408). -/
theorem C4_counterexample :
    ovFileBufferMax (16 * 1024) = 3584 ∧
    ovFileBufferMax (16 * 1024) < 16 * 1024 ∧
    Nat.lcm (recordWords true) (recordWords false) = 56 := by
  refine ⟨by decide, by decide, by decide⟩

/-- C4 amended: the computed capacity is the greatest multiple of
`ovFileLCM = 896` (the product of the two per-record byte sizes, itself a
common multiple of both record word widths) whose size in bytes does not
exceed `max bufferSize (16 * 1024)`; the 16 Ki minimum applies to the
`bufferSize` argument (in bytes), not to the capacity in words. -/
theorem C4_amended (bufferSize : Nat) :
    ovFileLCM ∣ ovFileBufferMax bufferSize ∧
    ovFileBufferMax bufferSize * sizeofUint32 ≤ max bufferSize (16 * 1024) ∧
    ∀ m, ovFileLCM ∣ m → m * sizeofUint32 ≤ max bufferSize (16 * 1024) →
      m ≤ ovFileBufferMax bufferSize := by
  have hbs : (if bufferSize < 16 * 1024 then 16 * 1024 else bufferSize) =
      max bufferSize (16 * 1024) := by
    rw [Nat.max_def]
    split
    · split
      · rfl
      · omega
    · split
      · omega
      · rfl
  refine ⟨dvd_ovFileBufferMax _ dvd_rfl _, ?_, ?_⟩
  · rw [ovFileBufferMax_eq, ← hbs]
    have := Nat.div_mul_le_self (if bufferSize < 16 * 1024 then 16 * 1024 else bufferSize) 3584
    show _ * 896 * 4 ≤ _
    omega
  · intro m hdvd hle
    obtain ⟨t, rfl⟩ := hdvd
    rw [← hbs] at hle
    rw [ovFileBufferMax_eq]
    rw [ovFileLCM_eq] at hle ⊢
    have ht : t ≤ (if bufferSize < 16 * 1024 then 16 * 1024 else bufferSize) / 3584 :=
      (Nat.le_div_iff_mul_le (by omega)).mpr (by
        show t * 3584 ≤ _
        have : 896 * t * sizeofUint32 = t * 3584 := by
          show 896 * t * 4 = t * 3584
          ring
        omega)
    calc 896 * t ≤ 896 * ((if bufferSize < 16 * 1024 then 16 * 1024 else bufferSize) / 3584) :=
          Nat.mul_le_mul_left _ ht
      _ = _ := Nat.mul_comm _ _

/-- C4 amended, witness at `bufferSize = 0`. -/
theorem C4_amended_witness :
    ovFileLCM ∣ ovFileBufferMax 0 ∧ 3584 ≤ ovFileBufferMax 0 :=
  ⟨(C4_amended 0).1, (C4_amended 0).2.2 3584 (by decide) (by decide)⟩

/-- One overlap record (`ovOverlap`, variant `ovOverlapNWORDS == 3`): two
32-bit read identifiers and three 64-bit payload words `dat.dat[0..2]`. -/
structure ovOverlap where
  a_iid : Nat
  b_iid : Nat
  dat0 : Nat
  dat1 : Nat
  dat2 : Nat
deriving DecidableEq

/-- Well-formedness: the fields fit their C types (`uint32` ids, `uint64`
payload words). -/
def ovOverlap.WF (ov : ovOverlap) : Prop :=
  ov.a_iid < 2 ^ 32 ∧ ov.b_iid < 2 ^ 32 ∧
  ov.dat0 < 2 ^ 64 ∧ ov.dat1 < 2 ^ 64 ∧ ov.dat2 < 2 ^ 64

instance (ov : ovOverlap) : Decidable ov.WF := by
  unfold ovOverlap.WF
  infer_instance

/-- The 32-bit wire words one record contributes to the buffer, exactly as
`writeOverlap` emits them: `a_iid` only when not normal, then `b_iid`, then
each 64-bit payload word split as `(dat >> 32) & 0xffffffff` followed by
`(dat >> 0) & 0xffffffff`. -/
def encodeWords (isNormal : Bool) (ov : ovOverlap) : List Nat :=
  (if isNormal then [] else [ov.a_iid]) ++
  [ov.b_iid,
   (ov.dat0 >>> 32) &&& 0xffffffff, (ov.dat0 >>> 0) &&& 0xffffffff,
   (ov.dat1 >>> 32) &&& 0xffffffff, (ov.dat1 >>> 0) &&& 0xffffffff,
   (ov.dat2 >>> 32) &&& 0xffffffff, (ov.dat2 >>> 0) &&& 0xffffffff]

theorem length_encodeWords (isNormal : Bool) (ov : ovOverlap) :
    (encodeWords isNormal ov).length = recordWords isNormal := by
  cases isNormal <;> rfl

/-- The four constructor roles (`ovFileType`). -/
inductive ovFileType where
  | ovFileNormal
  | ovFileFull
  | ovFileNormalWrite
  | ovFileFullWrite
deriving DecidableEq

/-- State of one `ovFile` handle.  The word buffer is the list of words
currently filled (`_bufferLen` is its length); `fileWords` is the underlying
file as 32-bit words, with `filePos` the read cursor in it (writers append to
`fileWords` on flush).  The count index `_olapsPerRead` is represented by its
contents as a total function (the geometric `resizeArray` growth in the
source preserves contents and zero-fills new slots, so the array always
agrees with this function below its allocation). -/
structure ovFile where
  isOutput : Bool
  isSeekable : Bool
  isNormal : Bool
  bufferMax : Nat
  bufferPos : Nat
  buffer : List Nat
  fileWords : List Nat
  filePos : Nat
  hasCounts : Bool
  olapsPerRead : Nat → Nat
  olapsPerReadLast : Nat

/-- Record width of this handle's variant, in 32-bit words. -/
def ovFile.width (s : ovFile) : Nat := recordWords s.isNormal

/-- `ovFile::ovFile(name, type, bufferSize)`.  `contents` is the current
contents of the named file (empty for the write roles) and `compressed`
is what `compressedFileReader::isCompressed()` reports for it. -/
def ovFile.construct (type : ovFileType) (bufferSize : Nat)
    (contents : List Nat) (compressed : Bool) : ovFile :=
  { isOutput := type = ovFileType.ovFileNormalWrite ∨ type = ovFileType.ovFileFullWrite
    isSeekable :=
      (type = ovFileType.ovFileNormal ∨ type = ovFileType.ovFileFull) ∧ compressed = false
    isNormal := type = ovFileType.ovFileNormal ∨ type = ovFileType.ovFileNormalWrite
    bufferMax := ovFileBufferMax bufferSize
    bufferPos := ovFileBufferMax bufferSize
    buffer := []
    fileWords := contents
    filePos := 0
    hasCounts := type = ovFileType.ovFileFullWrite
    olapsPerRead := fun _ => 0
    olapsPerReadLast := 0 }

/-- `ovFile::writeBuffer(force)`: flush the word buffer to the file.  Returns
unchanged unless the handle is an output, the buffer is non-empty, and either
`force` holds or the buffer is full. -/
def ovFile.writeBuffer (s : ovFile) (force : Bool) : ovFile :=
  if s.isOutput = false then s
  else if force = false ∧ s.buffer.length < s.bufferMax then s
  else if s.buffer.length = 0 then s
  else { s with fileWords := s.fileWords ++ s.buffer, buffer := [] }

/-- Increment one cell of the count index (`_olapsPerRead[k]++`). -/
def incAt (f : Nat → Nat) (k : Nat) : Nat → Nat :=
  fun i => if i = k then f i + 1 else f i

/-- `ovFile::writeOverlap(overlap)`: flush the buffer if it is already full;
if the count index is active, bump both participants' counters and raise the
high-water mark; then append the encoded record to the buffer. -/
def ovFile.writeOverlap (s : ovFile) (ov : ovOverlap) : ovFile :=
  let s1 := s.writeBuffer false
  let s2 :=
    if s1.hasCounts then
      { s1 with
        olapsPerRead := incAt (incAt s1.olapsPerRead ov.a_iid) ov.b_iid
        olapsPerReadLast := max (max s1.olapsPerReadLast ov.a_iid) ov.b_iid }
    else s1
  { s2 with buffer := s2.buffer ++ encodeWords s2.isNormal ov }

/-- Loop body of `ovFile::writeOverlaps`: flush check, per-record counter
bumps (no high-water-mark update, that was done for the whole batch), then
append the encoded record to the buffer. -/
def writeOverlapsBody (t : ovFile) (ov : ovOverlap) : ovFile :=
  let t1 := t.writeBuffer false
  let t2 :=
    if t1.hasCounts then
      { t1 with olapsPerRead := incAt (incAt t1.olapsPerRead ov.a_iid) ov.b_iid }
    else t1
  { t2 with buffer := t2.buffer ++ encodeWords t2.isNormal ov }

/-- `ovFile::writeOverlaps(overlaps, overlapsLen)`: one high-water-mark pass
over the whole batch, then the per-record path (flush check, counter bumps,
encode) for each record in order. -/
def ovFile.writeOverlaps (s : ovFile) (ovs : List ovOverlap) : ovFile :=
  let s1 :=
    if s.hasCounts then
      { s with
        olapsPerReadLast :=
          ovs.foldl (fun m ov => max (max m ov.a_iid) ov.b_iid) s.olapsPerReadLast }
    else s
  ovs.foldl writeOverlapsBody s1

/-- The file contents after `ovFile::~ovFile` ran its `writeBuffer(true)`. -/
def ovFile.closeFileWords (s : ovFile) : List Nat :=
  (s.writeBuffer true).fileWords

/-- The sibling `.counts` file written by `ovFile::~ovFile` when the count
index is active: `_olapsPerReadLast` is incremented, then that value is
written as the header, followed by that many count entries from index 0. -/
def ovFile.countsFile (s : ovFile) : List Nat :=
  if s.hasCounts then
    (s.olapsPerReadLast + 1) ::
      (List.range (s.olapsPerReadLast + 1)).map s.olapsPerRead
  else []

/-- A sequence of `writeOverlap` calls. -/
def writeAll (s : ovFile) (ws : List ovOverlap) : ovFile :=
  ws.foldl ovFile.writeOverlap s

/-- Concatenated wire words of a record sequence. -/
def encodeAll (isNormal : Bool) (ws : List ovOverlap) : List Nat :=
  match ws with
  | [] => []
  | ov :: t => encodeWords isNormal ov ++ encodeAll isNormal t

/-- Number of occurrences of identifier `i` among the (first, second)
participant pairs of `ws`; a record with both participants equal to `i`
contributes 2. -/
def occCount (i : Nat) (ws : List ovOverlap) : Nat :=
  match ws with
  | [] => 0
  | ov :: t =>
      (if i = ov.a_iid then 1 else 0) + ((if i = ov.b_iid then 1 else 0) + occCount i t)

/-- The largest identifier appearing in `ws` (0 if `ws` is empty), computed
the way the writer's high-water mark is. -/
def maxId (ws : List ovOverlap) : Nat :=
  ws.foldl (fun m ov => max (max m ov.a_iid) ov.b_iid) 0

theorem incAt_apply (f : Nat → Nat) (k i : Nat) :
    incAt f k i = f i + (if i = k then 1 else 0) := by
  unfold incAt
  split <;> simp

theorem writeBuffer_hasCounts (s : ovFile) (f : Bool) :
    (s.writeBuffer f).hasCounts = s.hasCounts := by
  unfold ovFile.writeBuffer
  split
  · rfl
  split
  · rfl
  split
  · rfl
  · rfl

theorem writeBuffer_isOutput (s : ovFile) (f : Bool) :
    (s.writeBuffer f).isOutput = s.isOutput := by
  unfold ovFile.writeBuffer
  split
  · rfl
  split
  · rfl
  split
  · rfl
  · rfl

theorem writeBuffer_isNormal (s : ovFile) (f : Bool) :
    (s.writeBuffer f).isNormal = s.isNormal := by
  unfold ovFile.writeBuffer
  split
  · rfl
  split
  · rfl
  split
  · rfl
  · rfl

theorem writeBuffer_bufferMax (s : ovFile) (f : Bool) :
    (s.writeBuffer f).bufferMax = s.bufferMax := by
  unfold ovFile.writeBuffer
  split
  · rfl
  split
  · rfl
  split
  · rfl
  · rfl

theorem writeBuffer_olapsPerRead (s : ovFile) (f : Bool) :
    (s.writeBuffer f).olapsPerRead = s.olapsPerRead := by
  unfold ovFile.writeBuffer
  split
  · rfl
  split
  · rfl
  split
  · rfl
  · rfl

theorem writeBuffer_olapsPerReadLast (s : ovFile) (f : Bool) :
    (s.writeBuffer f).olapsPerReadLast = s.olapsPerReadLast := by
  unfold ovFile.writeBuffer
  split
  · rfl
  split
  · rfl
  split
  · rfl
  · rfl

theorem writeBuffer_append (s : ovFile) (f : Bool) :
    (s.writeBuffer f).fileWords ++ (s.writeBuffer f).buffer = s.fileWords ++ s.buffer := by
  unfold ovFile.writeBuffer
  split
  · rfl
  split
  · rfl
  split
  · rfl
  · simp

theorem writeBuffer_true_buffer (s : ovFile) (h : s.isOutput = true) :
    (s.writeBuffer true).buffer = [] := by
  unfold ovFile.writeBuffer
  rw [h]
  rw [if_neg (by simp : ¬(true = false)),
    if_neg (by simp : ¬(true = false ∧ s.buffer.length < s.bufferMax))]
  split
  · exact List.length_eq_zero.mp (by assumption)
  · rfl

theorem closeFileWords_eq (s : ovFile) (h : s.isOutput = true) :
    s.closeFileWords = s.fileWords ++ s.buffer := by
  have h2 := writeBuffer_append s true
  have h3 := writeBuffer_true_buffer s h
  unfold ovFile.closeFileWords
  rw [← h2, h3, List.append_nil]

theorem writeOverlap_hasCounts (s : ovFile) (ov : ovOverlap) :
    (s.writeOverlap ov).hasCounts = s.hasCounts := by
  simp only [ovFile.writeOverlap]
  split <;> simp [writeBuffer_hasCounts]

theorem writeOverlap_isOutput (s : ovFile) (ov : ovOverlap) :
    (s.writeOverlap ov).isOutput = s.isOutput := by
  simp only [ovFile.writeOverlap]
  split <;> simp [writeBuffer_isOutput]

theorem writeOverlap_isNormal (s : ovFile) (ov : ovOverlap) :
    (s.writeOverlap ov).isNormal = s.isNormal := by
  simp only [ovFile.writeOverlap]
  split <;> simp [writeBuffer_isNormal]

theorem writeOverlap_bufferMax (s : ovFile) (ov : ovOverlap) :
    (s.writeOverlap ov).bufferMax = s.bufferMax := by
  simp only [ovFile.writeOverlap]
  split <;> simp [writeBuffer_bufferMax]

theorem writeOverlap_olapsPerRead (s : ovFile) (ov : ovOverlap) :
    (s.writeOverlap ov).olapsPerRead =
      if s.hasCounts then incAt (incAt s.olapsPerRead ov.a_iid) ov.b_iid
      else s.olapsPerRead := by
  simp only [ovFile.writeOverlap]
  split <;> rename_i hc
  · rw [writeBuffer_hasCounts] at hc
    simp [hc, writeBuffer_olapsPerRead]
  · rw [writeBuffer_hasCounts] at hc
    simp only [Bool.not_eq_true] at hc
    simp [hc, writeBuffer_olapsPerRead]

theorem writeOverlap_olapsPerReadLast (s : ovFile) (ov : ovOverlap) :
    (s.writeOverlap ov).olapsPerReadLast =
      if s.hasCounts then max (max s.olapsPerReadLast ov.a_iid) ov.b_iid
      else s.olapsPerReadLast := by
  simp only [ovFile.writeOverlap]
  split <;> rename_i hc
  · rw [writeBuffer_hasCounts] at hc
    simp [hc, writeBuffer_olapsPerReadLast]
  · rw [writeBuffer_hasCounts] at hc
    simp only [Bool.not_eq_true] at hc
    simp [hc, writeBuffer_olapsPerReadLast]

theorem writeOverlap_stream (s : ovFile) (ov : ovOverlap) :
    (s.writeOverlap ov).fileWords ++ (s.writeOverlap ov).buffer =
      (s.fileWords ++ s.buffer) ++ encodeWords s.isNormal ov := by
  simp only [ovFile.writeOverlap]
  split <;>
  · show (s.writeBuffer false).fileWords ++
        ((s.writeBuffer false).buffer ++ encodeWords (s.writeBuffer false).isNormal ov) = _
    rw [writeBuffer_isNormal, ← List.append_assoc, writeBuffer_append]

theorem writeAll_nil (s : ovFile) : writeAll s [] = s := rfl

theorem writeAll_cons (s : ovFile) (ov : ovOverlap) (t : List ovOverlap) :
    writeAll s (ov :: t) = writeAll (s.writeOverlap ov) t := rfl

theorem writeAll_isOutput (ws : List ovOverlap) (s : ovFile) :
    (writeAll s ws).isOutput = s.isOutput := by
  induction ws generalizing s with
  | nil => rfl
  | cons ov t ih => rw [writeAll_cons, ih, writeOverlap_isOutput]

theorem writeAll_isNormal (ws : List ovOverlap) (s : ovFile) :
    (writeAll s ws).isNormal = s.isNormal := by
  induction ws generalizing s with
  | nil => rfl
  | cons ov t ih => rw [writeAll_cons, ih, writeOverlap_isNormal]

theorem writeAll_hasCounts (ws : List ovOverlap) (s : ovFile) :
    (writeAll s ws).hasCounts = s.hasCounts := by
  induction ws generalizing s with
  | nil => rfl
  | cons ov t ih => rw [writeAll_cons, ih, writeOverlap_hasCounts]

theorem writeAll_stream (ws : List ovOverlap) (s : ovFile) :
    (writeAll s ws).fileWords ++ (writeAll s ws).buffer =
      (s.fileWords ++ s.buffer) ++ encodeAll s.isNormal ws := by
  induction ws generalizing s with
  | nil => simp [writeAll, encodeAll]
  | cons ov t ih =>
    rw [writeAll_cons, ih, writeOverlap_stream, writeOverlap_isNormal]
    simp [encodeAll, List.append_assoc]

theorem writeAll_counts_apply (ws : List ovOverlap) (s : ovFile)
    (h : s.hasCounts = true) (i : Nat) :
    (writeAll s ws).olapsPerRead i = s.olapsPerRead i + occCount i ws := by
  induction ws generalizing s with
  | nil => simp [writeAll, occCount]
  | cons ov t ih =>
    rw [writeAll_cons, ih _ (by rw [writeOverlap_hasCounts]; exact h)]
    rw [writeOverlap_olapsPerRead, if_pos h, incAt_apply, incAt_apply]
    simp only [occCount]
    omega

theorem writeAll_olapsPerReadLast (ws : List ovOverlap) (s : ovFile)
    (h : s.hasCounts = true) :
    (writeAll s ws).olapsPerReadLast =
      ws.foldl (fun m ov => max (max m ov.a_iid) ov.b_iid) s.olapsPerReadLast := by
  induction ws generalizing s with
  | nil => rfl
  | cons ov t ih =>
    rw [writeAll_cons, ih _ (by rw [writeOverlap_hasCounts]; exact h)]
    rw [writeOverlap_olapsPerReadLast, if_pos h, List.foldl_cons]

theorem body_hasCounts (t : ovFile) (ov : ovOverlap) :
    (writeOverlapsBody t ov).hasCounts = t.hasCounts := by
  simp only [writeOverlapsBody]
  split <;> simp [writeBuffer_hasCounts]

theorem body_isOutput (t : ovFile) (ov : ovOverlap) :
    (writeOverlapsBody t ov).isOutput = t.isOutput := by
  simp only [writeOverlapsBody]
  split <;> simp [writeBuffer_isOutput]

theorem body_isNormal (t : ovFile) (ov : ovOverlap) :
    (writeOverlapsBody t ov).isNormal = t.isNormal := by
  simp only [writeOverlapsBody]
  split <;> simp [writeBuffer_isNormal]

theorem body_bufferMax (t : ovFile) (ov : ovOverlap) :
    (writeOverlapsBody t ov).bufferMax = t.bufferMax := by
  simp only [writeOverlapsBody]
  split <;> simp [writeBuffer_bufferMax]

theorem body_olapsPerRead (t : ovFile) (ov : ovOverlap) :
    (writeOverlapsBody t ov).olapsPerRead =
      if t.hasCounts then incAt (incAt t.olapsPerRead ov.a_iid) ov.b_iid
      else t.olapsPerRead := by
  simp only [writeOverlapsBody]
  split <;> rename_i hc
  · rw [writeBuffer_hasCounts] at hc
    simp [hc, writeBuffer_olapsPerRead]
  · rw [writeBuffer_hasCounts] at hc
    simp only [Bool.not_eq_true] at hc
    simp [hc, writeBuffer_olapsPerRead]

theorem body_olapsPerReadLast (t : ovFile) (ov : ovOverlap) :
    (writeOverlapsBody t ov).olapsPerReadLast = t.olapsPerReadLast := by
  simp only [writeOverlapsBody]
  split <;> simp [writeBuffer_olapsPerReadLast]

theorem body_stream (t : ovFile) (ov : ovOverlap) :
    (writeOverlapsBody t ov).fileWords ++ (writeOverlapsBody t ov).buffer =
      (t.fileWords ++ t.buffer) ++ encodeWords t.isNormal ov := by
  simp only [writeOverlapsBody]
  split <;>
  · show (t.writeBuffer false).fileWords ++
        ((t.writeBuffer false).buffer ++ encodeWords (t.writeBuffer false).isNormal ov) = _
    rw [writeBuffer_isNormal, ← List.append_assoc, writeBuffer_append]

theorem foldlBody_stream (ws : List ovOverlap) (t : ovFile) :
    (ws.foldl writeOverlapsBody t).fileWords ++ (ws.foldl writeOverlapsBody t).buffer =
      (t.fileWords ++ t.buffer) ++ encodeAll t.isNormal ws := by
  induction ws generalizing t with
  | nil => simp [encodeAll]
  | cons ov l ih =>
    rw [List.foldl_cons, ih, body_stream, body_isNormal]
    simp [encodeAll, List.append_assoc]

theorem foldlBody_counts_apply (ws : List ovOverlap) (t : ovFile)
    (h : t.hasCounts = true) (i : Nat) :
    (ws.foldl writeOverlapsBody t).olapsPerRead i = t.olapsPerRead i + occCount i ws := by
  induction ws generalizing t with
  | nil => simp [occCount]
  | cons ov l ih =>
    rw [List.foldl_cons, ih _ (by rw [body_hasCounts]; exact h)]
    rw [body_olapsPerRead, if_pos h, incAt_apply, incAt_apply]
    simp only [occCount]
    omega

theorem foldlBody_olapsPerReadLast (ws : List ovOverlap) (t : ovFile) :
    (ws.foldl writeOverlapsBody t).olapsPerReadLast = t.olapsPerReadLast := by
  induction ws generalizing t with
  | nil => rfl
  | cons ov l ih => rw [List.foldl_cons, ih, body_olapsPerReadLast]

theorem writeOverlaps_stream (ws : List ovOverlap) (s : ovFile) :
    (s.writeOverlaps ws).fileWords ++ (s.writeOverlaps ws).buffer =
      (s.fileWords ++ s.buffer) ++ encodeAll s.isNormal ws := by
  simp only [ovFile.writeOverlaps]
  split <;> exact foldlBody_stream ws _

theorem writeOverlaps_hasCounts (ws : List ovOverlap) (s : ovFile) :
    (s.writeOverlaps ws).hasCounts = s.hasCounts := by
  simp only [ovFile.writeOverlaps]
  have hfold : ∀ (l : List ovOverlap) (t : ovFile),
      (l.foldl writeOverlapsBody t).hasCounts = t.hasCounts := by
    intro l
    induction l with
    | nil => intro t; rfl
    | cons ov l ih => intro t; rw [List.foldl_cons, ih, body_hasCounts]
  split <;> exact hfold ws _

theorem writeOverlaps_isOutput (ws : List ovOverlap) (s : ovFile) :
    (s.writeOverlaps ws).isOutput = s.isOutput := by
  simp only [ovFile.writeOverlaps]
  have hfold : ∀ (l : List ovOverlap) (t : ovFile),
      (l.foldl writeOverlapsBody t).isOutput = t.isOutput := by
    intro l
    induction l with
    | nil => intro t; rfl
    | cons ov l ih => intro t; rw [List.foldl_cons, ih, body_isOutput]
  split <;> exact hfold ws _

theorem writeOverlaps_isNormal (ws : List ovOverlap) (s : ovFile) :
    (s.writeOverlaps ws).isNormal = s.isNormal := by
  simp only [ovFile.writeOverlaps]
  have hfold : ∀ (l : List ovOverlap) (t : ovFile),
      (l.foldl writeOverlapsBody t).isNormal = t.isNormal := by
    intro l
    induction l with
    | nil => intro t; rfl
    | cons ov l ih => intro t; rw [List.foldl_cons, ih, body_isNormal]
  split <;> exact hfold ws _

theorem writeOverlaps_olapsPerReadLast (ws : List ovOverlap) (s : ovFile)
    (h : s.hasCounts = true) :
    (s.writeOverlaps ws).olapsPerReadLast =
      ws.foldl (fun m ov => max (max m ov.a_iid) ov.b_iid) s.olapsPerReadLast := by
  simp only [ovFile.writeOverlaps]
  rw [if_pos h, foldlBody_olapsPerReadLast]

theorem writeOverlaps_counts_apply (ws : List ovOverlap) (s : ovFile)
    (h : s.hasCounts = true) (i : Nat) :
    (s.writeOverlaps ws).olapsPerRead i = s.olapsPerRead i + occCount i ws := by
  simp only [ovFile.writeOverlaps]
  rw [if_pos h]
  refine foldlBody_counts_apply ws _ ?_ i
  exact h

theorem foldlMax_le_start (ws : List ovOverlap) (m : Nat) :
    m ≤ ws.foldl (fun n ov => max (max n ov.a_iid) ov.b_iid) m := by
  induction ws generalizing m with
  | nil => exact Nat.le_refl m
  | cons ov t ih =>
    rw [List.foldl_cons]
    exact Nat.le_trans (Nat.le_trans (Nat.le_max_left _ _) (Nat.le_max_left _ _)) (ih _)

theorem mem_le_foldlMax (ws : List ovOverlap) (m : Nat) (ov : ovOverlap) (h : ov ∈ ws) :
    ov.a_iid ≤ ws.foldl (fun n x => max (max n x.a_iid) x.b_iid) m ∧
    ov.b_iid ≤ ws.foldl (fun n x => max (max n x.a_iid) x.b_iid) m := by
  induction ws generalizing m with
  | nil => cases h
  | cons ov0 t ih =>
    rw [List.foldl_cons]
    rcases List.mem_cons.mp h with heq | hmem
    · subst heq
      constructor
      · exact Nat.le_trans (Nat.le_trans (Nat.le_max_right _ _) (Nat.le_max_left _ _))
          (foldlMax_le_start t _)
      · exact Nat.le_trans (Nat.le_max_right _ _) (foldlMax_le_start t _)
    · exact ih _ hmem

theorem foldlMax_attained (ws : List ovOverlap) (m : Nat) :
    ws.foldl (fun n x => max (max n x.a_iid) x.b_iid) m = m ∨
    ∃ ov ∈ ws, ws.foldl (fun n x => max (max n x.a_iid) x.b_iid) m = ov.a_iid ∨
      ws.foldl (fun n x => max (max n x.a_iid) x.b_iid) m = ov.b_iid := by
  induction ws generalizing m with
  | nil => exact Or.inl rfl
  | cons ov t ih =>
    rw [List.foldl_cons]
    rcases ih (max (max m ov.a_iid) ov.b_iid) with heq | ⟨ov2, hmem, hcase⟩
    · rw [heq]
      rcases max_choice (max m ov.a_iid) ov.b_iid with h1 | h1
      · rw [h1]
        rcases max_choice m ov.a_iid with h2 | h2
        · exact Or.inl h2
        · exact Or.inr ⟨ov, List.mem_cons_self _ _, Or.inl h2⟩
      · exact Or.inr ⟨ov, List.mem_cons_self _ _, Or.inr h1⟩
    · exact Or.inr ⟨ov2, List.mem_cons_of_mem _ hmem, hcase⟩

theorem maxId_ge (ws : List ovOverlap) (ov : ovOverlap) (h : ov ∈ ws) :
    ov.a_iid ≤ maxId ws ∧ ov.b_iid ≤ maxId ws :=
  mem_le_foldlMax ws 0 ov h

theorem maxId_attained (ws : List ovOverlap) (h : ws ≠ []) :
    ∃ ov ∈ ws, maxId ws = ov.a_iid ∨ maxId ws = ov.b_iid := by
  rcases foldlMax_attained ws 0 with heq | hex
  · obtain ⟨ov0, t, rfl⟩ := List.exists_cons_of_ne_nil h
    have hb := (maxId_ge (ov0 :: t) ov0 (List.mem_cons_self _ _)).1
    refine ⟨ov0, List.mem_cons_self _ _, Or.inl ?_⟩
    unfold maxId at hb ⊢
    omega
  · exact hex

theorem countsFile_writeAll (bufferSize : Nat) (ws : List ovOverlap) :
    (writeAll (ovFile.construct ovFileType.ovFileFullWrite bufferSize [] false) ws).countsFile =
      (maxId ws + 1) :: (List.range (maxId ws + 1)).map (fun i => occCount i ws) := by
  have hc : (ovFile.construct ovFileType.ovFileFullWrite bufferSize [] false).hasCounts = true := by
    rfl
  have hcAll :
      (writeAll (ovFile.construct ovFileType.ovFileFullWrite bufferSize [] false) ws).hasCounts
        = true := by
    rw [writeAll_hasCounts]
    exact hc
  unfold ovFile.countsFile
  rw [if_pos hcAll]
  have hlast :
      (writeAll (ovFile.construct ovFileType.ovFileFullWrite bufferSize [] false)
        ws).olapsPerReadLast = maxId ws := by
    rw [writeAll_olapsPerReadLast _ _ hc]
    rfl
  rw [hlast]
  congr 1
  apply List.map_congr_left
  intro i hi
  rw [writeAll_counts_apply _ _ hc]
  have hz : (ovFile.construct ovFileType.ovFileFullWrite bufferSize [] false).olapsPerRead i = 0 :=
    rfl
  omega

theorem countsFile_writeOverlaps (bufferSize : Nat) (ws : List ovOverlap) :
    ((ovFile.construct ovFileType.ovFileFullWrite bufferSize [] false).writeOverlaps ws).countsFile =
      (maxId ws + 1) :: (List.range (maxId ws + 1)).map (fun i => occCount i ws) := by
  have hc : (ovFile.construct ovFileType.ovFileFullWrite bufferSize [] false).hasCounts = true := by
    rfl
  have hcAll :
      ((ovFile.construct ovFileType.ovFileFullWrite bufferSize [] false).writeOverlaps
        ws).hasCounts = true := by
    rw [writeOverlaps_hasCounts]
    exact hc
  unfold ovFile.countsFile
  rw [if_pos hcAll]
  have hlast :
      ((ovFile.construct ovFileType.ovFileFullWrite bufferSize [] false).writeOverlaps
        ws).olapsPerReadLast = maxId ws := by
    rw [writeOverlaps_olapsPerReadLast _ _ hc]
    rfl
  rw [hlast]
  congr 1
  apply List.map_congr_left
  intro i hi
  rw [writeOverlaps_counts_apply _ _ hc]
  have hz : (ovFile.construct ovFileType.ovFileFullWrite bufferSize [] false).olapsPerRead i = 0 :=
    rfl
  omega

/-- C2: on a full-write handle, the serialized count index is a header word
equal to `maxId ws + 1` (one more than the largest identifier seen over all
records, whether written one at a time or as a batch) followed by exactly
that many entries, the entry at index `i` being the number of times `i`
appears among the (first, second) participant pairs, counting an identifier
twice when it is both members of one pair. -/
theorem C2_count_index (bufferSize : Nat) (ws : List ovOverlap) (h : ws ≠ []) :
    (writeAll (ovFile.construct ovFileType.ovFileFullWrite bufferSize [] false) ws).countsFile =
      (maxId ws + 1) :: (List.range (maxId ws + 1)).map (fun i => occCount i ws) ∧
    ((ovFile.construct ovFileType.ovFileFullWrite bufferSize [] false).writeOverlaps ws).countsFile
      = (maxId ws + 1) :: (List.range (maxId ws + 1)).map (fun i => occCount i ws) ∧
    (∀ ov ∈ ws, ov.a_iid ≤ maxId ws ∧ ov.b_iid ≤ maxId ws) ∧
    (∃ ov ∈ ws, maxId ws = ov.a_iid ∨ maxId ws = ov.b_iid) :=
  ⟨countsFile_writeAll bufferSize ws, countsFile_writeOverlaps bufferSize ws,
    fun ov hm => maxId_ge ws ov hm, maxId_attained ws h⟩

/-- C2 witness: one record with participants (1, 2) yields counts file
header 3 and entries `[0, 1, 1]`. -/
theorem C2_count_index_witness :
    (writeAll (ovFile.construct ovFileType.ovFileFullWrite 0 [] false)
      [⟨1, 2, 0, 0, 0⟩]).countsFile = [3, 0, 1, 1] :=
  ((C2_count_index 0 [⟨1, 2, 0, 0, 0⟩] (by decide)).1).trans (by decide)

/-- C3 counterexample: one record with participants (0, 1) (largest
identifier 1) produces counts-file header 2, not the claimed
`largest identifier + 2 = 3`. -/
theorem C3_counterexample :
    (writeAll (ovFile.construct ovFileType.ovFileFullWrite 0 [] false)
      [⟨0, 1, 0, 0, 0⟩]).countsFile.head? = some 2 ∧
    maxId [(⟨0, 1, 0, 0, 0⟩ : ovOverlap)] = 1 ∧ (2 : Nat) ≠ 1 + 2 := by
  refine ⟨?_, by decide, by decide⟩
  rw [countsFile_writeAll]
  decide

/-- C3 amended: the 4-byte count-of-entries header of the counts file equals
`lastId + 1`, one past the largest identifier seen (the close-time increment
is what turns the high-water mark `lastId` into the entry count), not
`lastId + 2`. -/
theorem C3_amended (bufferSize : Nat) (ws : List ovOverlap) (h : ws ≠ []) :
    (writeAll (ovFile.construct ovFileType.ovFileFullWrite bufferSize [] false)
      ws).countsFile.head? = some (maxId ws + 1) ∧
    (∃ ov ∈ ws, maxId ws = ov.a_iid ∨ maxId ws = ov.b_iid) := by
  refine ⟨?_, maxId_attained ws h⟩
  rw [countsFile_writeAll]
  rfl

/-- C3 amended, witness: participants (3, 1) give header 4. -/
theorem C3_amended_witness :
    (writeAll (ovFile.construct ovFileType.ovFileFullWrite 0 [] false)
      [⟨3, 1, 0, 0, 0⟩]).countsFile.head? = some 4 :=
  ((C3_amended 0 [⟨3, 1, 0, 0, 0⟩] (by decide)).1).trans (by decide)

/-- `ovFile::readBuffer()`: refill only when the whole buffer was consumed;
`AS_UTL_safeRead` reads up to `_bufferMax` words from the file, returning the
number actually read. -/
def ovFile.readBuffer (s : ovFile) : ovFile :=
  if s.bufferPos < s.buffer.length then s
  else
    let chunk := (s.fileWords.drop s.filePos).take s.bufferMax
    { s with bufferPos := 0, buffer := chunk, filePos := s.filePos + chunk.length }

/-- `ovFile::readOverlap(overlap)`: refill if needed; empty buffer means end
of data (return `false`, record untouched); otherwise decode the next record
from the buffer words.  `ov` is the record the caller passed in: its `a_iid`
survives when the handle is the normal variant, and each 64-bit payload word
is rebuilt as `(hi << 32) | lo` in `uint64` arithmetic. -/
def ovFile.readOverlap (s : ovFile) (ov : ovOverlap) : Bool × ovOverlap × ovFile :=
  let s1 := s.readBuffer
  if s1.buffer.length = 0 then (false, ov, s1)
  else
    let p0 := s1.bufferPos
    let a := if s1.isNormal then ov.a_iid else s1.buffer.getD p0 0
    let p := if s1.isNormal then p0 else p0 + 1
    let b := s1.buffer.getD p 0
    let d0 := ((s1.buffer.getD (p + 1) 0 <<< 32) % 2 ^ 64) ||| s1.buffer.getD (p + 2) 0
    let d1 := ((s1.buffer.getD (p + 3) 0 <<< 32) % 2 ^ 64) ||| s1.buffer.getD (p + 4) 0
    let d2 := ((s1.buffer.getD (p + 5) 0 <<< 32) % 2 ^ 64) ||| s1.buffer.getD (p + 6) 0
    (true, ⟨a, b, d0, d1, d2⟩, { s1 with bufferPos := p + 7 })

/-- `ovFile::readOverlaps(overlaps, overlapsLen)`: fill up to `n` records,
stopping early when a refill yields an empty buffer; returns the records
actually loaded.  The loop body of the source is an inline copy of the
`readOverlap` body, so it is expressed through `readOverlap`; `init` stands
for the previous contents of each slot of the caller's array (only its
`a_iid` can survive, and only for the normal variant). -/
def ovFile.readOverlaps (s : ovFile) (init : ovOverlap) (n : Nat) :
    List ovOverlap × ovFile :=
  match n with
  | 0 => ([], s)
  | n + 1 =>
    match s.readOverlap init with
    | (false, _, s1) => ([], s1)
    | (true, ov, s1) =>
      let r := s1.readOverlaps init n
      (ov :: r.1, r.2)

/-- Modelled from the spec: `ovFile::recordSize()` is declared in `ovStore.H`,
which is not part of the sources; per the spec's seek contract the byte
offset of record `n` is `n * recordSizeInBytes`, the size in bytes of one
on-disk record of the handle's variant. -/
def ovFile.recordSize (s : ovFile) : Nat :=
  sizeofUint32 * recordWords s.isNormal

/-- `ovFile::seekOverlap(overlap)`: aborts (`exit(1)`) when the handle is not
seekable, modelled as `none`; otherwise repositions the underlying file to
byte offset `overlap * recordSize()` (the word cursor of the model sits at a
quarter of the byte offset) and sets `_bufferPos = _bufferLen` so the next
read refills. -/
def ovFile.seekOverlap (s : ovFile) (overlap : Nat) : Option ovFile :=
  if s.isSeekable = false then none
  else some { s with
    filePos := overlap * s.recordSize / sizeofUint32
    bufferPos := s.buffer.length }

/-- Splitting a 64-bit word into `(d >> 32) & 0xffffffff` and
`d & 0xffffffff` and recombining by shift-or restores the word. -/
theorem split64_roundtrip (d : Nat) (h : d < 2 ^ 64) :
    ((((d >>> 32) &&& 0xffffffff) <<< 32) % 2 ^ 64) ||| ((d >>> 0) &&& 0xffffffff) = d := by
  have h1 : (0xffffffff : Nat) = 2 ^ 32 - 1 := by decide
  rw [h1, Nat.and_pow_two_sub_one_eq_mod, Nat.and_pow_two_sub_one_eq_mod]
  rw [Nat.shiftRight_eq_div_pow, Nat.shiftRight_eq_div_pow]
  have h2 : d / 2 ^ 32 < 2 ^ 32 := by
    apply Nat.div_lt_of_lt_mul
    calc d < 2 ^ 64 := h
      _ = 2 ^ 32 * 2 ^ 32 := by decide
  rw [Nat.mod_eq_of_lt h2]
  rw [Nat.shiftLeft_eq]
  have h3 : d / 2 ^ 32 * 2 ^ 32 < 2 ^ 64 := by
    calc d / 2 ^ 32 * 2 ^ 32 ≤ d := Nat.div_mul_le_self d (2 ^ 32)
      _ < 2 ^ 64 := h
  rw [Nat.mod_eq_of_lt h3]
  have h4 : d / 2 ^ 0 % 2 ^ 32 = d % 2 ^ 32 := by
    rw [Nat.pow_zero, Nat.div_one]
  rw [h4]
  rw [Nat.mul_comm (d / 2 ^ 32) (2 ^ 32)]
  rw [← Nat.mul_add_lt_is_or (Nat.mod_lt d (by decide)) (d / 2 ^ 32)]
  exact Nat.div_add_mod d (2 ^ 32)

/-- The wire words of one record are all below `2 ^ 32`. -/
theorem encodeWords_lt (isNormal : Bool) (ov : ovOverlap) (h : ov.WF) :
    ∀ w ∈ encodeWords isNormal ov, w < 2 ^ 32 := by
  obtain ⟨ha, hb, h0, h1, h2⟩ := h
  have hmask : ∀ d : Nat, d &&& 0xffffffff < 2 ^ 32 := by
    intro d
    have : (0xffffffff : Nat) = 2 ^ 32 - 1 := by decide
    rw [this, Nat.and_pow_two_sub_one_eq_mod]
    exact Nat.mod_lt d (by decide)
  intro w hw
  cases isNormal
  · simp [encodeWords] at hw
    rcases hw with rfl | rfl | rfl | rfl | rfl | rfl | rfl | rfl
    · exact ha
    · exact hb
    all_goals apply hmask
  · simp [encodeWords] at hw
    rcases hw with rfl | rfl | rfl | rfl | rfl | rfl | rfl
    · exact hb
    all_goals apply hmask

/-- The record a read produces: all wire fields come from the stored record
`ov`; `a_iid` keeps the caller's value `init` for the normal variant (it is
not on the wire there). -/
def readRec (isNormal : Bool) (init ov : ovOverlap) : ovOverlap :=
  ⟨if isNormal then init.a_iid else ov.a_iid, ov.b_iid, ov.dat0, ov.dat1, ov.dat2⟩

theorem readRec_full (init ov : ovOverlap) : readRec false init ov = ov := by
  cases ov
  rfl

/-- Reader representation invariant: the unread words (buffer tail plus file
tail) are exactly the wire form of `l`, the unread part of the buffer is
record-aligned, and the buffer capacity is a positive multiple of the
record width. -/
def Reads (s : ovFile) (l : List ovOverlap) : Prop :=
  s.buffer.drop s.bufferPos ++ s.fileWords.drop s.filePos = encodeAll s.isNormal l ∧
  (s.buffer.length - s.bufferPos) % s.width = 0 ∧
  s.bufferMax % s.width = 0 ∧
  0 < s.bufferMax

theorem recordWords_pos (b : Bool) : 0 < recordWords b := by
  cases b <;> decide

theorem getD_drop (p : Nat) (l : List Nat) (i : Nat) :
    (l.drop p).getD i 0 = l.getD (p + i) 0 := by
  induction p generalizing l with
  | zero => simp
  | succ p ih =>
    cases l with
    | nil => simp
    | cons a t =>
      rw [List.drop_succ_cons, ih t]
      have hx : p + 1 + i = p + i + 1 := by omega
      rw [hx, List.getD_cons_succ]

theorem drop_length_take (y : List Nat) (m : Nat) :
    y.drop ((y.take m).length) = y.drop m := by
  rw [List.length_take]
  rcases Nat.le_total m y.length with h | h
  · rw [Nat.min_eq_left h]
  · rw [Nat.min_eq_right h, List.drop_eq_nil_of_le h, List.drop_eq_nil_of_le (Nat.le_refl _)]

theorem encodeAll_length (b : Bool) (l : List ovOverlap) :
    (encodeAll b l).length = l.length * recordWords b := by
  induction l with
  | nil => simp [encodeAll]
  | cons ov t ih =>
    simp only [encodeAll, List.length_append, List.length_cons, ih, length_encodeWords]
    ring

theorem readBuffer_isNormal (s : ovFile) : s.readBuffer.isNormal = s.isNormal := by
  unfold ovFile.readBuffer
  split <;> rfl

theorem readBuffer_bufferMax (s : ovFile) : s.readBuffer.bufferMax = s.bufferMax := by
  unfold ovFile.readBuffer
  split <;> rfl

theorem readBuffer_fileWords (s : ovFile) : s.readBuffer.fileWords = s.fileWords := by
  unfold ovFile.readBuffer
  split <;> rfl

/-- The record `readOverlap` decodes at buffer position `p0`, written as a
standalone function of the refilled state's fields. -/
def decodeRec (b : Bool) (init : ovOverlap) (buf : List Nat) (p0 : Nat) : ovOverlap :=
  let a := if b then init.a_iid else buf.getD p0 0
  let p := if b then p0 else p0 + 1
  ⟨a, buf.getD p 0,
   ((buf.getD (p + 1) 0 <<< 32) % 2 ^ 64) ||| buf.getD (p + 2) 0,
   ((buf.getD (p + 3) 0 <<< 32) % 2 ^ 64) ||| buf.getD (p + 4) 0,
   ((buf.getD (p + 5) 0 <<< 32) % 2 ^ 64) ||| buf.getD (p + 6) 0⟩

/-- Buffer position after decoding one record at `p0`. -/
def nextPos (b : Bool) (p0 : Nat) : Nat :=
  (if b then p0 else p0 + 1) + 7

theorem nextPos_eq (b : Bool) (p0 : Nat) : nextPos b p0 = p0 + recordWords b := by
  cases b <;> rfl

theorem readOverlap_nonempty (s : ovFile) (init : ovOverlap)
    (h : ¬ s.readBuffer.buffer.length = 0) :
    s.readOverlap init =
      (true,
        decodeRec s.readBuffer.isNormal init s.readBuffer.buffer s.readBuffer.bufferPos,
        { s.readBuffer with
            bufferPos := nextPos s.readBuffer.isNormal s.readBuffer.bufferPos }) := by
  simp only [ovFile.readOverlap, decodeRec, nextPos]
  rw [if_neg h]

/-- Decoding inverts encoding: if the buffer words starting at `p0` are the
wire words of `ov`, the decoded record is `ov` up to the variant's missing
`a_iid`. -/
theorem decodeRec_correct (b : Bool) (init ov : ovOverlap) (buf : List Nat) (p0 : Nat)
    (hWF : ov.WF)
    (hget : ∀ i, i < recordWords b → buf.getD (p0 + i) 0 = (encodeWords b ov).getD i 0) :
    decodeRec b init buf p0 = readRec b init ov := by
  obtain ⟨-, -, hd0, hd1, hd2⟩ := hWF
  cases b
  · have e0 := hget 0 (by decide)
    have e1 := hget 1 (by decide)
    have e2 := hget 2 (by decide)
    have e3 := hget 3 (by decide)
    have e4 := hget 4 (by decide)
    have e5 := hget 5 (by decide)
    have e6 := hget 6 (by decide)
    have e7 := hget 7 (by decide)
    show (⟨buf.getD (p0 + 0) 0, buf.getD (p0 + 1) 0,
      ((buf.getD (p0 + 2) 0 <<< 32) % 2 ^ 64) ||| buf.getD (p0 + 3) 0,
      ((buf.getD (p0 + 4) 0 <<< 32) % 2 ^ 64) ||| buf.getD (p0 + 5) 0,
      ((buf.getD (p0 + 6) 0 <<< 32) % 2 ^ 64) ||| buf.getD (p0 + 7) 0⟩ : ovOverlap) = _
    rw [e0, e1, e2, e3, e4, e5, e6, e7]
    show (⟨ov.a_iid, ov.b_iid,
      ((((ov.dat0 >>> 32) &&& 0xffffffff) <<< 32) % 2 ^ 64) ||| ((ov.dat0 >>> 0) &&& 0xffffffff),
      ((((ov.dat1 >>> 32) &&& 0xffffffff) <<< 32) % 2 ^ 64) ||| ((ov.dat1 >>> 0) &&& 0xffffffff),
      ((((ov.dat2 >>> 32) &&& 0xffffffff) <<< 32) % 2 ^ 64) ||| ((ov.dat2 >>> 0) &&& 0xffffffff)⟩
        : ovOverlap) = _
    rw [split64_roundtrip ov.dat0 hd0, split64_roundtrip ov.dat1 hd1,
      split64_roundtrip ov.dat2 hd2]
    rfl
  · have e0 := hget 0 (by decide)
    have e1 := hget 1 (by decide)
    have e2 := hget 2 (by decide)
    have e3 := hget 3 (by decide)
    have e4 := hget 4 (by decide)
    have e5 := hget 5 (by decide)
    have e6 := hget 6 (by decide)
    show (⟨init.a_iid, buf.getD (p0 + 0) 0,
      ((buf.getD (p0 + 1) 0 <<< 32) % 2 ^ 64) ||| buf.getD (p0 + 2) 0,
      ((buf.getD (p0 + 3) 0 <<< 32) % 2 ^ 64) ||| buf.getD (p0 + 4) 0,
      ((buf.getD (p0 + 5) 0 <<< 32) % 2 ^ 64) ||| buf.getD (p0 + 6) 0⟩ : ovOverlap) = _
    rw [e0, e1, e2, e3, e4, e5, e6]
    show (⟨init.a_iid, ov.b_iid,
      ((((ov.dat0 >>> 32) &&& 0xffffffff) <<< 32) % 2 ^ 64) ||| ((ov.dat0 >>> 0) &&& 0xffffffff),
      ((((ov.dat1 >>> 32) &&& 0xffffffff) <<< 32) % 2 ^ 64) ||| ((ov.dat1 >>> 0) &&& 0xffffffff),
      ((((ov.dat2 >>> 32) &&& 0xffffffff) <<< 32) % 2 ^ 64) ||| ((ov.dat2 >>> 0) &&& 0xffffffff)⟩
        : ovOverlap) = _
    rw [split64_roundtrip ov.dat0 hd0, split64_roundtrip ov.dat1 hd1,
      split64_roundtrip ov.dat2 hd2]
    rfl

/-- Refilling preserves the reader invariant; if records remain, the refilled
buffer has an unread word, and the buffer never grows beyond capacity. -/
theorem readBuffer_Reads (s : ovFile) (l : List ovOverlap) (h : Reads s l) :
    Reads s.readBuffer l ∧
    (l ≠ [] → s.readBuffer.bufferPos < s.readBuffer.buffer.length) ∧
    (s.buffer.length ≤ s.bufferMax → s.readBuffer.buffer.length ≤ s.bufferMax) := by
  obtain ⟨hrep, halign, hmaxw, hmaxpos⟩ := h
  unfold ovFile.readBuffer
  by_cases hlt : s.bufferPos < s.buffer.length
  · rw [if_pos hlt]
    exact ⟨⟨hrep, halign, hmaxw, hmaxpos⟩, fun _ => hlt, fun h2 => h2⟩
  · rw [if_neg hlt]
    have hge : s.buffer.length ≤ s.bufferPos := by omega
    have hdrop : s.buffer.drop s.bufferPos = [] := List.drop_eq_nil_of_le hge
    have hfile : s.fileWords.drop s.filePos = encodeAll s.isNormal l := by
      rw [← hrep, hdrop, List.nil_append]
    have hchunklen :
        ((s.fileWords.drop s.filePos).take s.bufferMax).length =
          min s.bufferMax (encodeAll s.isNormal l).length := by
      rw [List.length_take, hfile]
    refine ⟨⟨?_, ?_, hmaxw, hmaxpos⟩, ?_, ?_⟩
    · show (s.fileWords.drop s.filePos).take s.bufferMax ++
        s.fileWords.drop (s.filePos +
          ((s.fileWords.drop s.filePos).take s.bufferMax).length) = _
      have hdd : s.fileWords.drop (s.filePos +
          ((s.fileWords.drop s.filePos).take s.bufferMax).length) =
            (s.fileWords.drop s.filePos).drop
              ((s.fileWords.drop s.filePos).take s.bufferMax).length := by
        rw [List.drop_drop]
      rw [hdd, drop_length_take, List.take_append_drop, hfile]
    · show (((s.fileWords.drop s.filePos).take s.bufferMax).length - 0) % s.width = 0
      rw [Nat.sub_zero, hchunklen]
      have hlen : (encodeAll s.isNormal l).length % s.width = 0 := by
        rw [encodeAll_length]
        exact Nat.mul_mod_left _ _
      rcases Nat.le_total s.bufferMax (encodeAll s.isNormal l).length with hc | hc
      · rw [Nat.min_eq_left hc]
        exact hmaxw
      · rw [Nat.min_eq_right hc]
        exact hlen
    · intro hne
      show 0 < ((s.fileWords.drop s.filePos).take s.bufferMax).length
      rw [hchunklen]
      obtain ⟨ov, t, rfl⟩ := List.exists_cons_of_ne_nil hne
      have hwpos := recordWords_pos s.isNormal
      have hlenc : 0 < (encodeAll s.isNormal (ov :: t)).length := by
        rw [encodeAll_length]
        simp only [List.length_cons]
        exact Nat.mul_pos (Nat.succ_pos _) hwpos
      omega
    · intro _
      show ((s.fileWords.drop s.filePos).take s.bufferMax).length ≤ s.bufferMax
      rw [hchunklen]
      exact Nat.min_le_left _ _

/-- One successful read: on a stream holding `ov :: l` the read returns
`true`, produces `ov` (with `a_iid` handled per variant), and leaves a
reader holding `l`, within buffer bounds. -/
theorem readOverlap_step (s : ovFile) (init ov : ovOverlap) (l : List ovOverlap)
    (hR : Reads s (ov :: l)) (hWF : ov.WF) :
    (s.readOverlap init).1 = true ∧
    (s.readOverlap init).2.1 = readRec s.isNormal init ov ∧
    Reads (s.readOverlap init).2.2 l ∧
    (s.readOverlap init).2.2.isNormal = s.isNormal ∧
    (s.readOverlap init).2.2.bufferMax = s.bufferMax ∧
    (s.readOverlap init).2.2.bufferPos ≤ (s.readOverlap init).2.2.buffer.length ∧
    (s.buffer.length ≤ s.bufferMax →
      (s.readOverlap init).2.2.buffer.length ≤ s.bufferMax) := by
  obtain ⟨hR1, hp, hbnd⟩ := readBuffer_Reads s (ov :: l) hR
  have hp1 : s.readBuffer.bufferPos < s.readBuffer.buffer.length :=
    hp (by simp)
  have hne : ¬ s.readBuffer.buffer.length = 0 := by omega
  obtain ⟨hrep1, halign1, hmaxw1, hmaxpos1⟩ := hR1
  have hwdvd : s.readBuffer.width ∣
      (s.readBuffer.buffer.length - s.readBuffer.bufferPos) :=
    Nat.dvd_iff_mod_eq_zero.mpr halign1
  have hWeq : s.readBuffer.width = recordWords s.readBuffer.isNormal := rfl
  have hwle : recordWords s.readBuffer.isNormal ≤
      s.readBuffer.buffer.length - s.readBuffer.bufferPos :=
    hWeq ▸ Nat.le_of_dvd (by omega) hwdvd
  have hcons : encodeAll s.readBuffer.isNormal (ov :: l) =
      encodeWords s.readBuffer.isNormal ov ++ encodeAll s.readBuffer.isNormal l := rfl
  rw [hcons] at hrep1
  have hDlen : (s.readBuffer.buffer.drop s.readBuffer.bufferPos).length =
      s.readBuffer.buffer.length - s.readBuffer.bufferPos := List.length_drop _ _
  have hD : s.readBuffer.buffer.drop s.readBuffer.bufferPos =
      (encodeWords s.readBuffer.isNormal ov ++ encodeAll s.readBuffer.isNormal l).take
        (s.readBuffer.buffer.length - s.readBuffer.bufferPos) := by
    rw [← hrep1, ← hDlen, List.take_left]
  have hget : ∀ i, i < recordWords s.readBuffer.isNormal →
      s.readBuffer.buffer.getD (s.readBuffer.bufferPos + i) 0 =
        (encodeWords s.readBuffer.isNormal ov).getD i 0 := by
    intro i hi
    rw [← getD_drop, hD]
    rw [List.getD_eq_getElem?_getD, List.getD_eq_getElem?_getD]
    rw [List.getElem?_take_of_lt (by
      show i < s.readBuffer.buffer.length - s.readBuffer.bufferPos
      omega)]
    rw [List.getElem?_append_left (by
      rw [length_encodeWords]
      exact hi)]
  have hiso := readBuffer_isNormal s
  rw [readOverlap_nonempty s init hne]
  refine ⟨rfl, ?_, ⟨?_, ?_, ?_, ?_⟩, ?_, ?_, ?_, ?_⟩
  · show decodeRec s.readBuffer.isNormal init s.readBuffer.buffer s.readBuffer.bufferPos = _
    rw [← hiso]
    exact decodeRec_correct _ init ov _ _ hWF hget
  · show s.readBuffer.buffer.drop
        (nextPos s.readBuffer.isNormal s.readBuffer.bufferPos) ++
      s.readBuffer.fileWords.drop s.readBuffer.filePos = _
    rw [nextPos_eq]
    have hdd : s.readBuffer.buffer.drop
        (s.readBuffer.bufferPos + recordWords s.readBuffer.isNormal) =
        (s.readBuffer.buffer.drop s.readBuffer.bufferPos).drop
          (recordWords s.readBuffer.isNormal) := by
      rw [List.drop_drop]
    rw [hdd]
    have happ : (s.readBuffer.buffer.drop s.readBuffer.bufferPos).drop
          (recordWords s.readBuffer.isNormal) ++
        s.readBuffer.fileWords.drop s.readBuffer.filePos =
        ((s.readBuffer.buffer.drop s.readBuffer.bufferPos) ++
          s.readBuffer.fileWords.drop s.readBuffer.filePos).drop
            (recordWords s.readBuffer.isNormal) := by
      rw [List.drop_append_of_le_length (by omega)]
    rw [happ, hrep1, List.drop_left' (length_encodeWords _ _)]
  · show (s.readBuffer.buffer.length -
        nextPos s.readBuffer.isNormal s.readBuffer.bufferPos) % _ = 0
    rw [nextPos_eq]
    have hsub : s.readBuffer.buffer.length -
        (s.readBuffer.bufferPos + recordWords s.readBuffer.isNormal) =
        (s.readBuffer.buffer.length - s.readBuffer.bufferPos) -
          recordWords s.readBuffer.isNormal := by omega
    rw [hsub]
    apply Nat.mod_eq_zero_of_dvd
    exact Nat.dvd_sub' (hWeq ▸ hwdvd) dvd_rfl
  · exact hmaxw1
  · exact hmaxpos1
  · exact hiso
  · exact readBuffer_bufferMax s
  · show nextPos s.readBuffer.isNormal s.readBuffer.bufferPos ≤
      s.readBuffer.buffer.length
    rw [nextPos_eq]
    omega
  · exact hbnd

theorem readBuffer_end (s : ovFile) (hge : s.buffer.length ≤ s.bufferPos)
    (hfile : s.fileWords.drop s.filePos = []) :
    s.readBuffer = { s with bufferPos := 0, buffer := [] } := by
  unfold ovFile.readBuffer
  rw [if_neg (by omega)]
  rw [hfile, List.take_nil]
  rfl

/-- A read at end of data returns `false`, leaves the caller's record alone,
and only resets the buffer cursor. -/
theorem readOverlap_end (s : ovFile) (init : ovOverlap) (h : Reads s []) :
    s.readOverlap init = (false, init, { s with bufferPos := 0, buffer := [] }) ∧
    s.fileWords.drop s.filePos = [] := by
  have hrep := h.1
  rw [show encodeAll s.isNormal [] = [] from rfl] at hrep
  have hnil := List.append_eq_nil.mp hrep
  have hge : s.buffer.length ≤ s.bufferPos := by
    have hlen := congrArg List.length hnil.1
    rw [List.length_drop] at hlen
    simp only [List.length_nil] at hlen
    omega
  have hRB := readBuffer_end s hge hnil.2
  refine ⟨?_, hnil.2⟩
  unfold ovFile.readOverlap
  rw [hRB]
  rfl

theorem readOverlap_end_fix (s : ovFile) (init : ovOverlap) (h : Reads s [])
    (hbuf : s.buffer = []) (hpos : s.bufferPos = 0) :
    s.readOverlap init = (false, init, s) := by
  obtain ⟨h1, -⟩ := readOverlap_end s init h
  rw [h1]
  have heta : ({ s with bufferPos := 0, buffer := [] } : ovFile) = s := by
    rw [← hbuf, ← hpos]
  rw [heta]

/-- Reading the full contents sequentially: a reader holding the wire form
of `ws` yields exactly the records of `ws` (with `a_iid` handled per
variant). -/
theorem readOverlaps_all (ws : List ovOverlap) (s : ovFile) (init : ovOverlap)
    (hR : Reads s ws) (hWF : ∀ ov ∈ ws, ov.WF) :
    (s.readOverlaps init ws.length).1 = ws.map (readRec s.isNormal init) := by
  induction ws generalizing s with
  | nil => rfl
  | cons ov t ih =>
    have hstep := readOverlap_step s init ov t hR (hWF ov (List.mem_cons_self _ _))
    have hEq : s.readOverlap init =
        (true, readRec s.isNormal init ov, (s.readOverlap init).2.2) := by
      obtain ⟨h1, h2, -⟩ := hstep
      rw [← h1, ← h2]
    show (s.readOverlaps init (t.length + 1)).1 = _
    simp only [ovFile.readOverlaps]
    rw [hEq]
    show readRec s.isNormal init ov ::
        ((s.readOverlap init).2.2.readOverlaps init t.length).1 = _
    rw [ih (s.readOverlap init).2.2 hstep.2.2.1
      (fun o ho => hWF o (List.mem_cons_of_mem _ ho))]
    rw [hstep.2.2.2.1]
    rfl

/-- The write role of a variant: `ovFileNormalWrite` for the normal variant,
`ovFileFullWrite` for the full variant. -/
def writeRole (b : Bool) : ovFileType :=
  if b then ovFileType.ovFileNormalWrite else ovFileType.ovFileFullWrite

/-- The read role of a variant: `ovFileNormal` for the normal variant,
`ovFileFull` for the full variant. -/
def readRole (b : Bool) : ovFileType :=
  if b then ovFileType.ovFileNormal else ovFileType.ovFileFull

theorem construct_writeRole_isOutput (b : Bool) (bs : Nat) (f : List Nat) (c : Bool) :
    (ovFile.construct (writeRole b) bs f c).isOutput = true := by
  cases b <;> rfl

theorem construct_writeRole_isNormal (b : Bool) (bs : Nat) (f : List Nat) (c : Bool) :
    (ovFile.construct (writeRole b) bs f c).isNormal = b := by
  cases b <;> rfl

theorem construct_readRole_isNormal (b : Bool) (bs : Nat) (f : List Nat) (c : Bool) :
    (ovFile.construct (readRole b) bs f c).isNormal = b := by
  cases b <;> rfl

theorem construct_readRole_isSeekable (b : Bool) (bs : Nat) (f : List Nat) (c : Bool) :
    (ovFile.construct (readRole b) bs f c).isSeekable = !c := by
  cases b <;> cases c <;> rfl

theorem recordWords_dvd_lcm (b : Bool) : recordWords b ∣ ovFileLCM := by
  cases b <;> decide

/-- A freshly opened read handle over the wire form of `ws` represents `ws`. -/
theorem construct_Reads (b : Bool) (bs : Nat) (ws : List ovOverlap) (c : Bool) :
    Reads (ovFile.construct (readRole b) bs (encodeAll b ws) c) ws := by
  have hn := construct_readRole_isNormal b bs (encodeAll b ws) c
  refine ⟨?_, ?_, ?_, ovFileBufferMax_pos bs⟩
  · show ([] : List Nat).drop (ovFileBufferMax bs) ++ (encodeAll b ws).drop 0 =
      encodeAll (ovFile.construct (readRole b) bs (encodeAll b ws) c).isNormal ws
    rw [hn, List.drop_nil, List.nil_append, List.drop_zero]
  · show (([] : List Nat).length - ovFileBufferMax bs) % _ = 0
    simp
  · show ovFileBufferMax bs %
      recordWords (ovFile.construct (readRole b) bs (encodeAll b ws) c).isNormal = 0
    rw [hn]
    exact Nat.mod_eq_zero_of_dvd (dvd_ovFileBufferMax _ (recordWords_dvd_lcm b) bs)

/-- Closing a write handle after a batch write leaves exactly the wire form
of the batch in the file. -/
theorem writeOverlaps_file (b : Bool) (bs : Nat) (ws : List ovOverlap) :
    ((ovFile.construct (writeRole b) bs [] false).writeOverlaps ws).closeFileWords =
      encodeAll b ws := by
  rw [closeFileWords_eq _ (by
    rw [writeOverlaps_isOutput]
    exact construct_writeRole_isOutput b bs [] false)]
  rw [writeOverlaps_stream]
  rw [construct_writeRole_isNormal]
  show ([] : List Nat) ++ [] ++ encodeAll b ws = encodeAll b ws
  simp

theorem encodeAll_drop (b : Bool) (k : Nat) (ws : List ovOverlap) :
    (encodeAll b ws).drop (k * recordWords b) = encodeAll b (ws.drop k) := by
  induction k generalizing ws with
  | zero => simp
  | succ k ih =>
    cases ws with
    | nil => simp [encodeAll]
    | cons ov t =>
      have hsplit : (k + 1) * recordWords b = recordWords b + k * recordWords b := by ring
      rw [hsplit]
      show (encodeWords b ov ++ encodeAll b t).drop (recordWords b + k * recordWords b) = _
      rw [← List.drop_drop, List.drop_left' (length_encodeWords b ov)]
      exact ih t

/-- C1: writing a record sequence with `writeOverlaps` on a write-role
handle, closing it, and reading the file back with `readOverlaps` on a
read-role handle of the same variant reproduces the sequence
element-for-element: every on-wire field round-trips (including each 64-bit
payload word through its high/low 32-bit wire split), and for the full
variant — whose wire format carries `a_iid` — the output list is literally
the input list.  For the normal variant `a_iid` is not on the wire; the
output record's `a_iid` is the caller's slot value `init`. -/
theorem C1_round_trip (b : Bool) (ws : List ovOverlap) (init : ovOverlap)
    (bs1 bs2 : Nat) (c : Bool) (hWF : ∀ ov ∈ ws, ov.WF) :
    ((ovFile.construct (readRole b) bs2
        (((ovFile.construct (writeRole b) bs1 [] false).writeOverlaps ws).closeFileWords)
        c).readOverlaps init ws.length).1 = ws.map (readRec b init) ∧
    (b = false →
      ((ovFile.construct (readRole b) bs2
        (((ovFile.construct (writeRole b) bs1 [] false).writeOverlaps ws).closeFileWords)
        c).readOverlaps init ws.length).1 = ws) := by
  rw [writeOverlaps_file b bs1 ws]
  have h1 := readOverlaps_all ws
    (ovFile.construct (readRole b) bs2 (encodeAll b ws) c) init
    (construct_Reads b bs2 ws c) hWF
  rw [construct_readRole_isNormal] at h1
  refine ⟨h1, ?_⟩
  rintro rfl
  rw [h1]
  have hid : ∀ l : List ovOverlap, l.map (readRec false init) = l := by
    intro l
    induction l with
    | nil => rfl
    | cons x t ih => rw [List.map_cons, readRec_full, ih]
  exact hid ws

/-- C1 witness: two full-variant records, one with payload words exercising
both 32-bit halves, round-trip exactly. -/
theorem C1_round_trip_witness :
    ((ovFile.construct (readRole false) 0
        (((ovFile.construct (writeRole false) 0 [] false).writeOverlaps
          [⟨1, 2, 8589934597, 4294967296, 18446744073709551615⟩,
           ⟨3, 4, 5, 6, 7⟩]).closeFileWords)
        false).readOverlaps ⟨0, 0, 0, 0, 0⟩ 2).1 =
      [⟨1, 2, 8589934597, 4294967296, 18446744073709551615⟩, ⟨3, 4, 5, 6, 7⟩] :=
  (C1_round_trip false
    [⟨1, 2, 8589934597, 4294967296, 18446744073709551615⟩, ⟨3, 4, 5, 6, 7⟩]
    ⟨0, 0, 0, 0, 0⟩ 0 0 false (by decide)).2 rfl

/-- C7: at end of data the read returns `false`, does not mutate the
caller's record, leaves the file contents and position (hence every record
an earlier read produced) unchanged, and a second read returns `false`
again with the state a fixed point. -/
theorem C7_end_of_data (s : ovFile) (init : ovOverlap) (h : Reads s []) :
    (s.readOverlap init).1 = false ∧
    (s.readOverlap init).2.1 = init ∧
    (s.readOverlap init).2.2.fileWords = s.fileWords ∧
    (s.readOverlap init).2.2.filePos = s.filePos ∧
    (s.readOverlap init).2.2.readOverlap init = (false, init, (s.readOverlap init).2.2) := by
  obtain ⟨h1, hfile⟩ := readOverlap_end s init h
  rw [h1]
  refine ⟨rfl, rfl, rfl, rfl, ?_⟩
  apply readOverlap_end_fix
  · refine ⟨?_, by simp, h.2.2.1, h.2.2.2⟩
    show ([] : List Nat).drop 0 ++ s.fileWords.drop s.filePos = _
    rw [hfile]
    rfl
  · rfl
  · rfl

/-- The state `seekOverlap` produces on a seekable handle. -/
def seekState (s : ovFile) (k : Nat) : ovFile :=
  { s with
    filePos := k * s.recordSize / sizeofUint32
    bufferPos := s.buffer.length }

theorem seekOverlap_some (s : ovFile) (k : Nat) (h : s.isSeekable = true) :
    s.seekOverlap k = some (seekState s k) := by
  unfold ovFile.seekOverlap seekState
  rw [if_neg (by rw [h]; simp)]

/-- A state whose cursor sits at record boundary `k` of the wire form of
`ws`, with an invalidated buffer, represents the stream `ws.drop k`. -/
theorem Reads_state (s2 : ovFile) (b : Bool) (ws : List ovOverlap) (k : Nat)
    (hn : s2.isNormal = b) (hbuf : s2.buffer = [])
    (hfp : s2.filePos = k * recordWords b)
    (hfw : s2.fileWords = encodeAll b ws)
    (hm1 : s2.bufferMax % recordWords b = 0) (hm2 : 0 < s2.bufferMax) :
    Reads s2 (ws.drop k) := by
  refine ⟨?_, ?_, ?_, hm2⟩
  · rw [hbuf, hfw, hfp, hn]
    simp [encodeAll_drop]
  · rw [hbuf]
    simp
  · show s2.bufferMax % recordWords s2.isNormal = 0
    rw [hn]
    exact hm1

/-- C6: `seekOverlap` on a compressed (non-seekable) handle aborts, modelled
as `none`.  On a seekable uncompressed read handle over a closed store of
`ws`, `seekOverlap k` repositions the file to byte offset `k * recordSize()`
and invalidates the buffer (`bufferPos = bufferLen`), and the next
`readOverlap` succeeds and returns exactly the record that sequential
reading from the start produces at position `k`, for every `k` below the
record count. -/
theorem C6_seek (b : Bool) (ws : List ovOverlap) (init : ovOverlap) (bs : Nat) (k : Nat)
    (hk : k < ws.length) (hWF : ∀ ov ∈ ws, ov.WF) :
    (ovFile.construct (readRole b) bs
        (((ovFile.construct (writeRole b) bs [] false).writeOverlaps ws).closeFileWords)
        true).seekOverlap k = none ∧
    ∃ r2,
      (ovFile.construct (readRole b) bs
        (((ovFile.construct (writeRole b) bs [] false).writeOverlaps ws).closeFileWords)
        false).seekOverlap k = some r2 ∧
      r2.filePos * sizeofUint32 = k * r2.recordSize ∧
      r2.bufferPos = r2.buffer.length ∧
      (r2.readOverlap init).1 = true ∧
      (r2.readOverlap init).2.1 =
        ((ovFile.construct (readRole b) bs
          (((ovFile.construct (writeRole b) bs [] false).writeOverlaps ws).closeFileWords)
          false).readOverlaps init ws.length).1.getD k init := by
  rw [writeOverlaps_file b bs ws]
  constructor
  · unfold ovFile.seekOverlap
    rw [if_pos]
    rw [construct_readRole_isSeekable]
    rfl
  · have hn := construct_readRole_isNormal b bs (encodeAll b ws) false
    have hseek : (ovFile.construct (readRole b) bs (encodeAll b ws) false).isSeekable
        = true := by
      rw [construct_readRole_isSeekable]
      rfl
    refine ⟨seekState (ovFile.construct (readRole b) bs (encodeAll b ws) false) k,
      seekOverlap_some _ k hseek, ?_, rfl, ?_⟩
    · have hn2 : (seekState (ovFile.construct (readRole b) bs
          (encodeAll b ws) false) k).isNormal = b := hn
      have hrs2 : (seekState (ovFile.construct (readRole b) bs
          (encodeAll b ws) false) k).recordSize = sizeofUint32 * recordWords b := by
        show sizeofUint32 * recordWords (seekState (ovFile.construct (readRole b) bs
          (encodeAll b ws) false) k).isNormal = _
        rw [hn2]
      have hfp2 : (seekState (ovFile.construct (readRole b) bs
          (encodeAll b ws) false) k).filePos = k * recordWords b := by
        show k * (ovFile.construct (readRole b) bs
          (encodeAll b ws) false).recordSize / sizeofUint32 = _
        have hrs : (ovFile.construct (readRole b) bs (encodeAll b ws) false).recordSize =
            sizeofUint32 * recordWords b := by
          show sizeofUint32 * recordWords (ovFile.construct (readRole b) bs
            (encodeAll b ws) false).isNormal = _
          rw [hn]
        rw [hrs]
        have hx : k * (sizeofUint32 * recordWords b) = k * recordWords b * sizeofUint32 := by
          ring
        rw [hx, Nat.mul_div_cancel _ (by decide : 0 < sizeofUint32)]
      rw [hfp2, hrs2]
      ring
    · have hn2 : (seekState (ovFile.construct (readRole b) bs
          (encodeAll b ws) false) k).isNormal = b := hn
      have hfp2 : (seekState (ovFile.construct (readRole b) bs
          (encodeAll b ws) false) k).filePos = k * recordWords b := by
        show k * (ovFile.construct (readRole b) bs
          (encodeAll b ws) false).recordSize / sizeofUint32 = _
        have hrs : (ovFile.construct (readRole b) bs (encodeAll b ws) false).recordSize =
            sizeofUint32 * recordWords b := by
          show sizeofUint32 * recordWords (ovFile.construct (readRole b) bs
            (encodeAll b ws) false).isNormal = _
          rw [hn]
        rw [hrs]
        have hx : k * (sizeofUint32 * recordWords b) = k * recordWords b * sizeofUint32 := by
          ring
        rw [hx, Nat.mul_div_cancel _ (by decide : 0 < sizeofUint32)]
      have hdk : ws.drop k = ws[k] :: ws.drop (k + 1) := List.drop_eq_getElem_cons hk
      have hR2 : Reads (seekState (ovFile.construct (readRole b) bs
          (encodeAll b ws) false) k) (ws.drop k) :=
        Reads_state _ b ws k hn2 rfl hfp2 rfl
          (Nat.mod_eq_zero_of_dvd (dvd_ovFileBufferMax _ (recordWords_dvd_lcm b) bs))
          (ovFileBufferMax_pos bs)
      rw [hdk] at hR2
      have hstep := readOverlap_step _ init ws[k] (ws.drop (k + 1)) hR2
        (hWF _ (List.getElem_mem hk))
      refine ⟨hstep.1, ?_⟩
      rw [hstep.2.1]
      have hseq := readOverlaps_all ws
        (ovFile.construct (readRole b) bs (encodeAll b ws) false) init
        (construct_Reads b bs ws false) hWF
      rw [construct_readRole_isNormal] at hseq
      rw [hseq]
      rw [List.getD_eq_getElem?_getD, List.getElem?_map, List.getElem?_eq_getElem hk]
      rw [hn2]
      rfl

/-- C6 witness: seeking to the middle record of a three-record full-variant
store and reading it. -/
theorem C6_seek_witness :
    ∃ r2,
      (ovFile.construct (readRole false) 0
        (((ovFile.construct (writeRole false) 0 [] false).writeOverlaps
          [⟨1, 2, 3, 4, 5⟩, ⟨6, 7, 8, 9, 10⟩, ⟨11, 12, 13, 14, 15⟩]).closeFileWords)
        false).seekOverlap 1 = some r2 ∧
      (r2.readOverlap ⟨0, 0, 0, 0, 0⟩).1 = true ∧
      (r2.readOverlap ⟨0, 0, 0, 0, 0⟩).2.1 =
        ((ovFile.construct (readRole false) 0
          (((ovFile.construct (writeRole false) 0 [] false).writeOverlaps
            [⟨1, 2, 3, 4, 5⟩, ⟨6, 7, 8, 9, 10⟩, ⟨11, 12, 13, 14, 15⟩]).closeFileWords)
          false).readOverlaps ⟨0, 0, 0, 0, 0⟩ 3).1.getD 1 ⟨0, 0, 0, 0, 0⟩ := by
  obtain ⟨-, r2, h1, -, -, h4, h5⟩ := C6_seek false
    [⟨1, 2, 3, 4, 5⟩, ⟨6, 7, 8, 9, 10⟩, ⟨11, 12, 13, 14, 15⟩]
    ⟨0, 0, 0, 0, 0⟩ 0 1 (by decide) (by decide)
  exact ⟨r2, h1, h4, h5⟩

theorem writeBuffer_false_noop (s : ovFile) (h : s.buffer.length < s.bufferMax) :
    s.writeBuffer false = s := by
  unfold ovFile.writeBuffer
  split
  · rfl
  · rw [if_pos ⟨rfl, h⟩]

theorem writeOverlap_of_lt (s : ovFile) (ov : ovOverlap)
    (h : s.buffer.length < s.bufferMax) :
    (s.writeOverlap ov).buffer = s.buffer ++ encodeWords s.isNormal ov ∧
    (s.writeOverlap ov).fileWords = s.fileWords := by
  simp only [ovFile.writeOverlap]
  rw [writeBuffer_false_noop s h]
  split <;> exact ⟨rfl, rfl⟩

theorem writeOverlap_of_eq (s : ovFile) (ov : ovOverlap) (hout : s.isOutput = true)
    (heq : s.buffer.length = s.bufferMax) (hpos : 0 < s.bufferMax) :
    (s.writeOverlap ov).buffer = encodeWords s.isNormal ov ∧
    (s.writeOverlap ov).fileWords = s.fileWords ++ s.buffer := by
  have hwb : s.writeBuffer false =
      { s with fileWords := s.fileWords ++ s.buffer, buffer := [] } := by
    unfold ovFile.writeBuffer
    rw [if_neg (by rw [hout]; simp)]
    rw [if_neg (by intro hcon; omega)]
    rw [if_neg (by omega)]
  simp only [ovFile.writeOverlap]
  rw [hwb]
  split <;> exact ⟨rfl, rfl⟩

theorem body_of_lt (t : ovFile) (ov : ovOverlap)
    (h : t.buffer.length < t.bufferMax) :
    (writeOverlapsBody t ov).buffer = t.buffer ++ encodeWords t.isNormal ov ∧
    (writeOverlapsBody t ov).fileWords = t.fileWords := by
  simp only [writeOverlapsBody]
  rw [writeBuffer_false_noop t h]
  split <;> exact ⟨rfl, rfl⟩

theorem body_of_eq (t : ovFile) (ov : ovOverlap) (hout : t.isOutput = true)
    (heq : t.buffer.length = t.bufferMax) (hpos : 0 < t.bufferMax) :
    (writeOverlapsBody t ov).buffer = encodeWords t.isNormal ov ∧
    (writeOverlapsBody t ov).fileWords = t.fileWords ++ t.buffer := by
  have hwb : t.writeBuffer false =
      { t with fileWords := t.fileWords ++ t.buffer, buffer := [] } := by
    unfold ovFile.writeBuffer
    rw [if_neg (by rw [hout]; simp)]
    rw [if_neg (by intro hcon; omega)]
    rw [if_neg (by omega)]
  simp only [writeOverlapsBody]
  rw [hwb]
  split <;> exact ⟨rfl, rfl⟩

/-- Writer invariant: the buffer fill never exceeds the capacity, the fill is
always a whole number of records, and the capacity is a positive multiple of
the record width.  Under it every word the encode loop writes lands at an
index strictly below the capacity. -/
def WInv (s : ovFile) : Prop :=
  s.buffer.length ≤ s.bufferMax ∧
  s.buffer.length % s.width = 0 ∧
  s.bufferMax % s.width = 0 ∧
  0 < s.bufferMax

theorem writeOverlap_inv (s : ovFile) (ov : ovOverlap) (hout : s.isOutput = true)
    (h : WInv s) :
    (s.writeOverlap ov).buffer.length ≤ s.bufferMax ∧
    (s.writeOverlap ov).buffer.length % s.width = 0 ∧
    (s.buffer.length < s.bufferMax → (s.writeOverlap ov).fileWords = s.fileWords) ∧
    (s.buffer.length = s.bufferMax →
      (s.writeOverlap ov).fileWords = s.fileWords ++ s.buffer) := by
  obtain ⟨h1, h2, h3, h4⟩ := h
  have hwpos := recordWords_pos s.isNormal
  obtain ⟨a, ha⟩ := Nat.dvd_iff_mod_eq_zero.mpr h2
  obtain ⟨c, hc⟩ := Nat.dvd_iff_mod_eq_zero.mpr h3
  rcases Nat.lt_or_ge s.buffer.length s.bufferMax with hlt | hge
  · obtain ⟨hbuf, hfw⟩ := writeOverlap_of_lt s ov hlt
    have hlen : (s.writeOverlap ov).buffer.length =
        s.buffer.length + recordWords s.isNormal := by
      rw [hbuf, List.length_append, length_encodeWords]
    have hac : a < c := by
      rw [ha, hc] at hlt
      exact Nat.lt_of_mul_lt_mul_left hlt
    refine ⟨?_, ?_, fun _ => hfw, fun hcon => absurd hcon (by omega)⟩
    · rw [hlen, ha, hc]
      have hx : s.width * a + recordWords s.isNormal = s.width * (a + 1) := by
        show s.width * a + s.width = _
        ring
      rw [hx]
      exact Nat.mul_le_mul_left _ hac
    · rw [hlen, ha]
      have hx : s.width * a + recordWords s.isNormal = s.width * (a + 1) := by
        show s.width * a + s.width = _
        ring
      rw [hx]
      exact Nat.mul_mod_right _ _
  · have heq : s.buffer.length = s.bufferMax := by omega
    obtain ⟨hbuf, hfw⟩ := writeOverlap_of_eq s ov hout heq h4
    have hlen : (s.writeOverlap ov).buffer.length = recordWords s.isNormal := by
      rw [hbuf, length_encodeWords]
    refine ⟨?_, ?_, fun hcon => absurd hcon (by omega), fun _ => hfw⟩
    · rw [hlen]
      exact Nat.le_of_dvd h4 (Nat.dvd_iff_mod_eq_zero.mpr h3)
    · rw [hlen]
      show recordWords s.isNormal % recordWords s.isNormal = 0
      exact Nat.mod_self _

theorem body_inv (t : ovFile) (ov : ovOverlap) (hout : t.isOutput = true)
    (h : WInv t) :
    (writeOverlapsBody t ov).buffer.length ≤ t.bufferMax ∧
    (writeOverlapsBody t ov).buffer.length % t.width = 0 := by
  obtain ⟨h1, h2, h3, h4⟩ := h
  have hwpos := recordWords_pos t.isNormal
  obtain ⟨a, ha⟩ := Nat.dvd_iff_mod_eq_zero.mpr h2
  obtain ⟨c, hc⟩ := Nat.dvd_iff_mod_eq_zero.mpr h3
  rcases Nat.lt_or_ge t.buffer.length t.bufferMax with hlt | hge
  · obtain ⟨hbuf, -⟩ := body_of_lt t ov hlt
    have hlen : (writeOverlapsBody t ov).buffer.length =
        t.buffer.length + recordWords t.isNormal := by
      rw [hbuf, List.length_append, length_encodeWords]
    have hac : a < c := by
      rw [ha, hc] at hlt
      exact Nat.lt_of_mul_lt_mul_left hlt
    constructor
    · rw [hlen, ha, hc]
      have hx : t.width * a + recordWords t.isNormal = t.width * (a + 1) := by
        show t.width * a + t.width = _
        ring
      rw [hx]
      exact Nat.mul_le_mul_left _ hac
    · rw [hlen, ha]
      have hx : t.width * a + recordWords t.isNormal = t.width * (a + 1) := by
        show t.width * a + t.width = _
        ring
      rw [hx]
      exact Nat.mul_mod_right _ _
  · have heq : t.buffer.length = t.bufferMax := by omega
    obtain ⟨hbuf, -⟩ := body_of_eq t ov hout heq h4
    have hlen : (writeOverlapsBody t ov).buffer.length = recordWords t.isNormal := by
      rw [hbuf, length_encodeWords]
    constructor
    · rw [hlen]
      exact Nat.le_of_dvd h4 (Nat.dvd_iff_mod_eq_zero.mpr h3)
    · rw [hlen]
      show recordWords t.isNormal % recordWords t.isNormal = 0
      exact Nat.mod_self _

theorem writeAll_bufferMax (ws : List ovOverlap) (s : ovFile) :
    (writeAll s ws).bufferMax = s.bufferMax := by
  induction ws generalizing s with
  | nil => rfl
  | cons ov t ih => rw [writeAll_cons, ih, writeOverlap_bufferMax]

/-- State after `n` identical full-variant `writeOverlap` calls (`n ≤ 448`):
the buffer holds `8 * n` words and nothing has been flushed yet, because the
flush check runs before encoding, so the buffer can be filled to exactly its
3584-word capacity without a flush happening. -/
theorem writeRep_state (n : Nat) (h : n ≤ 448) :
    (writeAll (ovFile.construct ovFileType.ovFileFullWrite 0 [] false)
      (List.replicate n ⟨0, 0, 0, 0, 0⟩)).buffer.length = 8 * n ∧
    (writeAll (ovFile.construct ovFileType.ovFileFullWrite 0 [] false)
      (List.replicate n ⟨0, 0, 0, 0, 0⟩)).fileWords = [] := by
  induction n with
  | zero => exact ⟨rfl, rfl⟩
  | succ n ih =>
    obtain ⟨hlen, hfw⟩ := ih (by omega)
    have hmax : (writeAll (ovFile.construct ovFileType.ovFileFullWrite 0 [] false)
        (List.replicate n ⟨0, 0, 0, 0, 0⟩)).bufferMax = 3584 := by
      rw [writeAll_bufferMax]
      rfl
    have hnorm : (writeAll (ovFile.construct ovFileType.ovFileFullWrite 0 [] false)
        (List.replicate n ⟨0, 0, 0, 0, 0⟩)).isNormal = false := by
      rw [writeAll_isNormal]
      rfl
    have hsplit : List.replicate (n + 1) (⟨0, 0, 0, 0, 0⟩ : ovOverlap) =
        List.replicate n ⟨0, 0, 0, 0, 0⟩ ++ [⟨0, 0, 0, 0, 0⟩] :=
      List.replicate_succ' n _
    have happ : writeAll (ovFile.construct ovFileType.ovFileFullWrite 0 [] false)
        (List.replicate n ⟨0, 0, 0, 0, 0⟩ ++ [⟨0, 0, 0, 0, 0⟩]) =
        (writeAll (ovFile.construct ovFileType.ovFileFullWrite 0 [] false)
          (List.replicate n ⟨0, 0, 0, 0, 0⟩)).writeOverlap ⟨0, 0, 0, 0, 0⟩ := by
      unfold writeAll
      rw [List.foldl_append]
      rfl
    rw [hsplit, happ]
    have hlt : (writeAll (ovFile.construct ovFileType.ovFileFullWrite 0 [] false)
        (List.replicate n ⟨0, 0, 0, 0, 0⟩)).buffer.length <
        (writeAll (ovFile.construct ovFileType.ovFileFullWrite 0 [] false)
          (List.replicate n ⟨0, 0, 0, 0, 0⟩)).bufferMax := by
      rw [hlen, hmax]
      omega
    obtain ⟨hbuf, hfw2⟩ := writeOverlap_of_lt _ ⟨0, 0, 0, 0, 0⟩ hlt
    constructor
    · rw [hbuf, List.length_append, hlen, hnorm, length_encodeWords]
      show 8 * n + recordWords false = 8 * (n + 1)
      rw [recordWords_false]
      ring
    · rw [hfw2, hfw]

/-- C8 counterexample: on a fresh full-write handle (capacity 3584 words,
8 words per record), the 448th `writeOverlap` call fills the buffer to
exactly its capacity and returns without flushing — the fill length equals
the capacity when the call returns, not strictly less as claimed. -/
theorem C8_counterexample :
    (writeAll (ovFile.construct ovFileType.ovFileFullWrite 0 [] false)
      (List.replicate 448 ⟨0, 0, 0, 0, 0⟩)).buffer.length = 3584 ∧
    (writeAll (ovFile.construct ovFileType.ovFileFullWrite 0 [] false)
      (List.replicate 448 ⟨0, 0, 0, 0, 0⟩)).bufferMax = 3584 ∧
    (writeAll (ovFile.construct ovFileType.ovFileFullWrite 0 [] false)
      (List.replicate 448 ⟨0, 0, 0, 0, 0⟩)).fileWords = [] := by
  obtain ⟨h1, h2⟩ := writeRep_state 448 (Nat.le_refl _)
  refine ⟨?_, ?_, h2⟩
  · rw [h1]
  · rw [writeAll_bufferMax]
    rfl

/-- C8 amended: `writeOverlap` flushes a full buffer at the start of the
call, before encoding — so a buffer that becomes full during a call is
flushed at the start of the next write call, and when `writeOverlap`
returns the fill length is at most the capacity, with equality exactly when
the record just encoded filled the buffer. -/
theorem C8_amended (s : ovFile) (ov : ovOverlap) (hout : s.isOutput = true)
    (h : WInv s) :
    (s.writeOverlap ov).buffer.length ≤ s.bufferMax ∧
    (s.buffer.length < s.bufferMax → (s.writeOverlap ov).fileWords = s.fileWords) ∧
    (s.buffer.length = s.bufferMax →
      (s.writeOverlap ov).fileWords = s.fileWords ++ s.buffer) := by
  obtain ⟨h1, -, h3, h4⟩ := writeOverlap_inv s ov hout h
  exact ⟨h1, h3, h4⟩

/-- C10: buffer safety.  (1) The constructor establishes the writer
invariant for every role: empty fill, capacity a positive multiple of both
record widths.  (2) `writeOverlap` and (3) `writeOverlaps` preserve it, so
the fill never exceeds the capacity and every word the encode loop writes
lands at an index strictly below the capacity.  (4) On the read side, a read
from a record-aligned stream keeps `bufferPos ≤ bufferLen ≤ bufferMax`, so
every word the decode loop reads lies strictly below the capacity and no
record straddles the buffer. -/
theorem C10_buffer_safety :
    (∀ ty bufferSize contents c, WInv (ovFile.construct ty bufferSize contents c)) ∧
    (∀ s ov, s.isOutput = true → WInv s → WInv (s.writeOverlap ov)) ∧
    (∀ s ws, s.isOutput = true → WInv s → WInv (s.writeOverlaps ws)) ∧
    (∀ s init l, Reads s l → (∀ ov ∈ l, ov.WF) →
      s.buffer.length ≤ s.bufferMax →
      (s.readOverlap init).2.2.bufferPos ≤ (s.readOverlap init).2.2.buffer.length ∧
      (s.readOverlap init).2.2.buffer.length ≤ s.bufferMax) := by
  refine ⟨?_, ?_, ?_, ?_⟩
  · intro ty bufferSize contents c
    refine ⟨?_, ?_, ?_, ovFileBufferMax_pos bufferSize⟩
    · show ([] : List Nat).length ≤ ovFileBufferMax bufferSize
      simp
    · show (([] : List Nat).length) % _ = 0
      simp
    · show ovFileBufferMax bufferSize % recordWords _ = 0
      exact Nat.mod_eq_zero_of_dvd (dvd_ovFileBufferMax _ (recordWords_dvd_lcm _) bufferSize)
  · intro s ov hout h
    obtain ⟨h1, h2, -, -⟩ := writeOverlap_inv s ov hout h
    refine ⟨?_, ?_, ?_, ?_⟩
    · rw [writeOverlap_bufferMax]
      exact h1
    · show _ % recordWords (s.writeOverlap ov).isNormal = 0
      rw [writeOverlap_isNormal]
      exact h2
    · show (s.writeOverlap ov).bufferMax % recordWords (s.writeOverlap ov).isNormal = 0
      rw [writeOverlap_bufferMax, writeOverlap_isNormal]
      exact h.2.2.1
    · rw [writeOverlap_bufferMax]
      exact h.2.2.2
  · intro s ws hout h
    have hfold : ∀ (l : List ovOverlap) (t : ovFile),
        t.isOutput = true → WInv t → WInv (l.foldl writeOverlapsBody t) := by
      intro l
      induction l with
      | nil => intro t _ ht; exact ht
      | cons ov l2 ih =>
        intro t ht hinv
        rw [List.foldl_cons]
        refine ih _ (by rw [body_isOutput]; exact ht) ?_
        obtain ⟨hb1, hb2⟩ := body_inv t ov ht hinv
        refine ⟨?_, ?_, ?_, ?_⟩
        · rw [body_bufferMax]
          exact hb1
        · show _ % recordWords (writeOverlapsBody t ov).isNormal = 0
          rw [body_isNormal]
          exact hb2
        · show (writeOverlapsBody t ov).bufferMax %
            recordWords (writeOverlapsBody t ov).isNormal = 0
          rw [body_bufferMax, body_isNormal]
          exact hinv.2.2.1
        · rw [body_bufferMax]
          exact hinv.2.2.2
    simp only [ovFile.writeOverlaps]
    split
    · exact hfold ws _ hout ⟨h.1, h.2.1, h.2.2.1, h.2.2.2⟩
    · exact hfold ws _ hout h
  · intro s init l hR hWF hlen
    cases l with
    | nil =>
      obtain ⟨h1, -⟩ := readOverlap_end s init hR
      rw [h1]
      exact ⟨Nat.le_refl 0, Nat.zero_le _⟩
    | cons ov t =>
      have hstep := readOverlap_step s init ov t hR (hWF ov (List.mem_cons_self _ _))
      exact ⟨hstep.2.2.2.2.2.1, hstep.2.2.2.2.2.2 hlen⟩

/-- C10 witness: the constructor invariant and one preserved write step on a
fresh full-write handle. -/
theorem C10_buffer_safety_witness :
    WInv (ovFile.construct ovFileType.ovFileFullWrite 0 [] false) ∧
    WInv ((ovFile.construct ovFileType.ovFileFullWrite 0 [] false).writeOverlap
      ⟨1, 2, 3, 4, 5⟩) :=
  ⟨C10_buffer_safety.1 ovFileType.ovFileFullWrite 0 [] false,
    C10_buffer_safety.2.1 (ovFile.construct ovFileType.ovFileFullWrite 0 [] false)
      ⟨1, 2, 3, 4, 5⟩ (by decide) ⟨by decide, by decide, by decide, by decide⟩⟩

/-- `bz_stream`, reduced to the only field `bzipBuffer::next` consults. -/
structure bzStream where
  avail_out : Nat

/-- The decompressing byte stream `bzipBuffer` (bzip-buffer header): the
fields `next`, `eof` and `tell` touch.  The decode buffers themselves are
abstracted away; `fillBuffer`, whose implementation is not part of the
header, is passed as a function where needed. -/
structure bzipBuffer where
  filePos : Nat
  eof : Bool
  bzip2bufferMax : Nat
  bzip2inPos : Nat
  bzip2outPos : Nat
  bzip2streamEnd : Bool
  bzip2stream : bzStream

/-- `bzipBuffer::next()`: if the end-of-stream flag is set, return true
immediately; otherwise advance the output cursor and file position, refill
through `fillBuffer` when the decode window is exhausted, and return the
(possibly updated) end-of-stream flag. -/
def bzipBuffer.next (s : bzipBuffer) (fillBuffer : bzipBuffer → bzipBuffer) :
    Bool × bzipBuffer :=
  if s.eof then (true, s)
  else
    let s1 := { s with bzip2outPos := s.bzip2outPos + 1, filePos := s.filePos + 1 }
    let s2 := if s1.bzip2stream.avail_out ≤ s1.bzip2outPos then fillBuffer s1 else s1
    (s2.eof, s2)

/-- `bzipBuffer::tell()`. -/
def bzipBuffer.tell (s : bzipBuffer) : Nat := s.filePos

/-- C9: once the end-of-stream flag is set, every `next()` call returns true
and leaves the stream state unchanged — in particular `tell()` does not
advance — whatever the internal `fillBuffer` would do. -/
theorem C9_post_end_idempotent (fillBuffer : bzipBuffer → bzipBuffer) (s : bzipBuffer)
    (h : s.eof = true) :
    s.next fillBuffer = (true, s) ∧ (s.next fillBuffer).2.tell = s.tell := by
  unfold bzipBuffer.next
  rw [if_pos h]
  exact ⟨rfl, rfl⟩

/-- C9 witness: a concrete exhausted stream. -/
theorem C9_post_end_idempotent_witness :
    bzipBuffer.next ⟨5, true, 4, 0, 3, true, ⟨3⟩⟩ id = (true, ⟨5, true, 4, 0, 3, true, ⟨3⟩⟩) :=
  (C9_post_end_idempotent id ⟨5, true, 4, 0, 3, true, ⟨3⟩⟩ rfl).1

/-- C8 amended, witness: one write into a fresh full-write handle. -/
theorem C8_amended_witness :
    ((ovFile.construct ovFileType.ovFileFullWrite 0 [] false).writeOverlap
      ⟨1, 2, 3, 4, 5⟩).buffer.length ≤
      (ovFile.construct ovFileType.ovFileFullWrite 0 [] false).bufferMax ∧
    ((ovFile.construct ovFileType.ovFileFullWrite 0 [] false).writeOverlap
      ⟨1, 2, 3, 4, 5⟩).fileWords =
      (ovFile.construct ovFileType.ovFileFullWrite 0 [] false).fileWords :=
  have h := C8_amended (ovFile.construct ovFileType.ovFileFullWrite 0 [] false)
    ⟨1, 2, 3, 4, 5⟩ (by decide) ⟨by decide, by decide, by decide, by decide⟩
  ⟨h.1, h.2.1 (by decide)⟩

/-- C7 witness: a normal-role reader over an empty file. -/
theorem C7_end_of_data_witness :
    ((ovFile.construct ovFileType.ovFileNormal 0 [] false).readOverlap
      ⟨9, 9, 9, 9, 9⟩).1 = false ∧
    ((ovFile.construct ovFileType.ovFileNormal 0 [] false).readOverlap
      ⟨9, 9, 9, 9, 9⟩).2.1 = (⟨9, 9, 9, 9, 9⟩ : ovOverlap) :=
  have h := C7_end_of_data (ovFile.construct ovFileType.ovFileNormal 0 [] false)
    ⟨9, 9, 9, 9, 9⟩ ⟨by decide, by decide, by decide, by decide⟩
  ⟨h.1, h.2.1⟩
